import Mathlib

/-!
# Pontifex (Solitaire) cipher: the deck engine and the cipher processor of `pontifex.go`

The Go program keeps the deck in a slice `p.deck []Card`.  A Go slice is a window on a
backing array: `append` writes into the array when the capacity allows it and allocates a
fresh array otherwise, and a slice expression `s[lo:hi]` shares the array of `s`.  The
functions of `pontifex.go` build the new deck with nested `append` calls on sub-slices of
`p.deck`, so what they compute depends on this sharing.  The embedding therefore keeps the
cells of the backing array that lie between the length and the capacity of `p.deck`
(`spare`) next to the visible cards (`deck`), and translates every `append` of the source
by `goAppend`.

What is not in the repository is a parameter:
* `grow oldCap newLen` is the capacity `append` gives a freshly allocated array
  (the Go runtime's `growslice`);
* `unicodeUpper` is `unicode.ToUpper` on the runes above ASCII (used by `strings.ToUpper`).

Strings are sequences of Unicode code points (Go strings that are valid UTF-8); lengths and
`range` offsets are counted in bytes as Go does.
-/

namespace Pontifex

/-- Go `type Card string`. -/
abbrev Card := String

/-- Go `type PontifexCipher struct` with its one field `deck []Card`.  `deck` holds the elements
`p.deck[0], ..., p.deck[len-1]`; `spare` holds the cells of the backing array after them,
up to the capacity, so `len(p.deck) = deck.length` and
`cap(p.deck) = deck.length + spare.length`. -/
structure PontifexCipher where
  deck : List Card
  spare : List Card
deriving DecidableEq, Repr

/-- Outcome of a run: a result, a Go runtime panic, or the loop bound of the model reached. -/
inductive Run (α : Type) where
  | done (a : α)
  | crash
  | timeout
deriving DecidableEq, Repr

def JOKER_A : Card := "JOKER_A"

def JOKER_B : Card := "JOKER_B"

/-- Go `NewPontifexCipher(deck)`: stores the slice it is given, nothing else.  The slice is
given by its elements and by the cells of its backing array after them. -/
def NewPontifexCipher (deck spare : List Card) : PontifexCipher := ⟨deck, spare⟩

/-- The backing array seen from the first element of `p.deck`. -/
def mem (p : PontifexCipher) : List Card := p.deck ++ p.spare

/-- Go `cap(p.deck)`. -/
def cap (p : PontifexCipher) : Nat := p.deck.length + p.spare.length

/-- Overwrite the cells `pos, pos+1, ...` of an array with `xs`. -/
def writeAt (m : List Card) (pos : Nat) (xs : List Card) : List Card :=
  m.take pos ++ xs ++ m.drop (pos + xs.length)

/-- The slice of length `n` that starts at the first cell of `m`. -/
def ofMem (m : List Card) (n : Nat) : PontifexCipher := ⟨m.take n, m.drop n⟩

/-- The array `m` after `append(s, xs...)` for `s = m[off : off+n]`, whose capacity is
`m.length - off`: when `xs` fits, it is written right after `s`; otherwise `m` is untouched
(the result lives in a new array). -/
def appendMem (m : List Card) (off n : Nat) (xs : List Card) : List Card :=
  if n + xs.length ≤ m.length - off then writeAt m (off + n) xs else m

/-- The elements of `append(s, xs...)` for `s = m[off : off+n]`. -/
def appendVals (m : List Card) (off n : Nat) (xs : List Card) : List Card :=
  (m.drop off).take n ++ xs

/-- The slice `append(s, xs...)` for `s = m[off : off+n]`: in place when `xs` fits in the
capacity of `s`, else in a new array of capacity `grow (cap s) (n + len xs)` (at least the
new length) whose remaining cells are the zero value `""`. -/
def goAppend (grow : Nat → Nat → Nat) (m : List Card) (off n : Nat) (xs : List Card) :
    PontifexCipher :=
  if n + xs.length ≤ m.length - off then
    ofMem ((appendMem m off n xs).drop off) (n + xs.length)
  else
    ⟨appendVals m off n xs,
      List.replicate (grow (m.length - off) (n + xs.length) - (n + xs.length)) ""⟩

/-- The loop of `indexOf`, started at index `i`. -/
def indexOfFrom (card : Card) : List Card → Nat → Int
  | [], _ => -1
  | c :: cs, i => if c = card then (i : Int) else indexOfFrom card cs (i + 1)

/-- Go `p.indexOf(card)`: index of the first occurrence, `-1` when absent. -/
def indexOf (p : PontifexCipher) (card : Card) : Int := indexOfFrom card p.deck 0

/-- Go `p.remove(idx)`: `p.deck = append(p.deck[:idx], p.deck[idx+1:]...)`. -/
def remove (grow : Nat → Nat → Nat) (p : PontifexCipher) (idx : Int) : PontifexCipher :=
  if idx < 0 ∨ idx ≥ p.deck.length then p
  else goAppend grow (mem p) 0 idx.toNat (p.deck.drop (idx.toNat + 1))

/-- Go `p.insert(idx, card)`:
`p.deck = append(p.deck[:idx], append([]Card{card}, p.deck[idx:]...)...)`; the inner
`append` starts from a one-cell literal, so its result never shares cells with `p.deck`. -/
def insert (grow : Nat → Nat → Nat) (p : PontifexCipher) (idx : Int) (card : Card) :
    PontifexCipher :=
  if idx < 0 ∨ idx > p.deck.length then p
  else goAppend grow (mem p) 0 idx.toNat (card :: p.deck.drop idx.toNat)

/-- Go `p.moveJoker(joker, positions)`; `none` is the integer division by zero of
`% len(p.deck)` on a deck that is empty after the removal. -/
def moveJoker (grow : Nat → Nat → Nat) (p : PontifexCipher) (joker : Card)
    (positions : Int) : Option PontifexCipher :=
  let idx := indexOf p joker
  if idx = -1 then some p
  else
    let p1 := remove grow p idx
    if p1.deck.length = 0 then none
    else
      let newPos := Int.tmod (idx + positions) p1.deck.length
      some (insert grow p1 newPos joker)

/-- Go `p.tripleCut()`.  `top`, `middle` and `bottom` are three windows on the array of
`p.deck`.  The inner `append(middle, top...)` runs first; when `top` fits in the capacity
left after `middle` it is written over the cells that follow `middle`, which are the cells
of `bottom`, and the outer `append(bottom, ...)` then reads `bottom` from that array. -/
def tripleCut (grow : Nat → Nat → Nat) (p : PontifexCipher) : PontifexCipher :=
  let a := indexOf p JOKER_A
  let b := indexOf p JOKER_B
  if a = -1 ∨ b = -1 then p
  else
    let idxA := (if a > b then b else a).toNat
    let idxB := (if a > b then a else b).toNat
    let top := p.deck.take idxA
    let m1 := appendMem (mem p) idxA (idxB + 1 - idxA) top
    let inner := appendVals (mem p) idxA (idxB + 1 - idxA) top
    goAppend grow m1 (idxB + 1) (p.deck.length - (idxB + 1)) inner

/-- The `rankOrder` map of `cardValue`. -/
def rankOrder : List (String × Int) :=
  [("A", 1), ("2", 2), ("3", 3), ("4", 4), ("5", 5), ("6", 6), ("7", 7), ("8", 8),
   ("9", 9), ("10", 10), ("J", 11), ("Q", 12), ("K", 13)]

/-- Go `p.cardValue(card)`.  `card[:len(card)-1]` drops the last byte: on the empty string the
slice bound is `-1` and Go panics (`none`); when the last character takes more than one
byte the remainder is not valid UTF-8, hence no key of the map; a missing key reads `0`. -/
def cardValue (card : Card) : Option Int :=
  if card = "JOKER_A" ∨ card = "JOKER_B" then some 53
  else
    match card.data.getLast? with
    | none => none
    | some c =>
      if c.toNat < 128 then some ((rankOrder.lookup (String.mk card.data.dropLast)).getD 0)
      else some 0

/-- Go `p.countCut()`.  The second statement reads `p.deck[len(p.deck)-1]` after `p.deck` has
been reassigned by the first one. -/
def countCut (grow : Nat → Nat → Nat) (p : PontifexCipher) : Option PontifexCipher :=
  match p.deck.getLast? with
  | none => none
  | some bottom =>
    match cardValue bottom with
    | none => none
    | some bottomValue =>
      if bottomValue ≥ p.deck.length then some p
      else
        let v := bottomValue.toNat
        let topSlice := p.deck.take v
        let p1 := goAppend grow (mem p) v (p.deck.length - 1 - v) topSlice
        match p1.deck.getLast? with
        | none => none
        | some last => some (goAppend grow (mem p1) 0 p1.deck.length [last])

/-- Go `p.getOutputCard()`; `-1` is the "no output" sentinel, `none` a panic. -/
def getOutputCard (p : PontifexCipher) : Option Int :=
  match p.deck.head? with
  | none => none
  | some top =>
    match cardValue top with
    | none => none
    | some topValue =>
      if topValue ≥ p.deck.length then some (-1)
      else
        match p.deck[topValue.toNat]? with
        | none => none
        | some c =>
          match cardValue c with
          | none => none
          | some output =>
            if output = 53 then some (-1)
            else if output > 26 then some (output - 26)
            else some output

/-- One iteration of the loop body of `generateKeystream`: the deck after it and the value
of `getOutputCard`. -/
def keystreamRound (grow : Nat → Nat → Nat) (p : PontifexCipher) :
    Option (PontifexCipher × Int) :=
  match moveJoker grow p JOKER_A 1 with
  | none => none
  | some p1 =>
    match moveJoker grow p1 JOKER_B 2 with
    | none => none
    | some p2 =>
      match countCut grow (tripleCut grow p2) with
      | none => none
      | some p4 =>
        match getOutputCard p4 with
        | none => none
        | some v => some (p4, v)

/-- The loop `for len(stream) < n { ... }` of `generateKeystream`, with at most `fuel`
iterations. -/
def generateKeystreamLoop (grow : Nat → Nat → Nat) :
    Nat → Nat → PontifexCipher → List Int → Run (List Int × PontifexCipher)
  | 0, n, p, stream => if stream.length < n then Run.timeout else Run.done (stream, p)
  | fuel + 1, n, p, stream =>
    if stream.length < n then
      match keystreamRound grow p with
      | none => Run.crash
      | some (p', v) =>
        generateKeystreamLoop grow fuel n p' (if v ≠ -1 then stream ++ [v] else stream)
    else Run.done (stream, p)

/-- Go `p.generateKeystream(n)`: the stream and the cipher state it leaves. -/
def generateKeystream (grow : Nat → Nat → Nat) (fuel n : Nat) (p : PontifexCipher) :
    Run (List Int × PontifexCipher) :=
  generateKeystreamLoop grow fuel n p []

/-- Go `unicode.ToUpper` on one rune; the ASCII range is fixed by the Go library's fast path. -/
def toUpperRune (unicodeUpper : Char → Char) (c : Char) : Char :=
  if c.toNat < 128 then
    (if 97 ≤ c.toNat ∧ c.toNat ≤ 122 then Char.ofNat (c.toNat - 32) else c)
  else unicodeUpper c

/-- Go `strings.ToUpper(msg)` followed by `strings.ReplaceAll(msg, " ", "")`. -/
def normalize (unicodeUpper : Char → Char) (msg : String) : List Char :=
  (msg.data.map (toUpperRune unicodeUpper)).filter (fun c => c ≠ ' ')

/-- Go `len(msg)`: the number of bytes. -/
def byteLen : List Char → Nat
  | [] => 0
  | c :: cs => c.utf8Size + byteLen cs

/-- The body of the loop of `process` for one rune `char` and its keystream value: the byte
given to `WriteByte`.  Go's `%` truncates toward zero; `byte(...)` keeps the low 8 bits. -/
def cipherByte (encrypt : Bool) (char : Char) (keyVal : Int) : Nat :=
  let msgVal : Int := (char.toNat : Int) - 65 + 1
  let cipherVal : Int :=
    if encrypt then Int.tmod (msgVal + keyVal) 26 else Int.tmod (msgVal - keyVal + 26) 26
  let cipherVal : Int := if cipherVal = 0 then 26 else cipherVal
  ((cipherVal - 1 + 65) % 256).toNat

/-- The loop `for i, char := range msg` of `process`: `i` is the byte offset of the rune,
`keystream[i]` panics when out of range, the result is the list of bytes written. -/
def processLoop (encrypt : Bool) (keystream : List Int) : List Char → Nat → Option (List Nat)
  | [], _ => some []
  | char :: rest, i =>
    match keystream[i]? with
    | none => none
    | some keyVal =>
      match processLoop encrypt keystream rest (i + char.utf8Size) with
      | none => none
      | some out => some (cipherByte encrypt char keyVal :: out)

/-- Go `p.process(msg, encrypt)`: the bytes of the returned string and the cipher state. -/
def process (unicodeUpper : Char → Char) (grow : Nat → Nat → Nat) (fuel : Nat)
    (p : PontifexCipher) (msg : String) (encrypt : Bool) : Run (List Nat × PontifexCipher) :=
  let msg := normalize unicodeUpper msg
  match generateKeystream grow fuel (byteLen msg) p with
  | Run.crash => Run.crash
  | Run.timeout => Run.timeout
  | Run.done (keystream, p') =>
    match processLoop encrypt keystream msg 0 with
    | none => Run.crash
    | some out => Run.done (out, p')

/-- The string whose bytes are `bs`, for bytes in the ASCII range. -/
def asciiString (bs : List Nat) : String := String.mk (bs.map Char.ofNat)

def suits : List String := ["C", "D", "H", "S"]

def ranks : List String := ["A", "2", "3", "4", "5", "6", "7", "8", "9", "10", "J", "Q", "K"]

/-- The deck `NewRandomDeck` builds before shuffling: the 52 ranked cards suit by suit,
then the two jokers. -/
def orderedDeck : List Card :=
  (suits.flatMap fun suit => ranks.map fun rank => rank ++ suit) ++ [JOKER_A, JOKER_B]

/-- The deck invariant of the specification: 54 distinct cards, the 52 ranked cards and the
two jokers. -/
def validDeck (d : List Card) : Prop :=
  d.length = 54 ∧ d.Nodup ∧ ∀ c ∈ d, c ∈ orderedDeck

instance (d : List Card) : Decidable (validDeck d) := by
  unfold validDeck; infer_instance

/-! ## The visible deck after each operation

The functions below give the cards of `p.deck` after each operation as a function of the
cards before it.  They are proved equal to the projections of the operations above. -/

/-- Cards left by `remove`. -/
def removeV (d : List Card) (idx : Int) : List Card :=
  if idx < 0 ∨ idx ≥ d.length then d else d.take idx.toNat ++ d.drop (idx.toNat + 1)

/-- Cards left by `insert`. -/
def insertV (d : List Card) (idx : Int) (card : Card) : List Card :=
  if idx < 0 ∨ idx > d.length then d else d.take idx.toNat ++ card :: d.drop idx.toNat

/-- Cards left by `moveJoker`. -/
def moveJokerV (d : List Card) (joker : Card) (positions : Int) : Option (List Card) :=
  let idx := indexOfFrom joker d 0
  if idx = -1 then some d
  else
    let d1 := removeV d idx
    if d1.length = 0 then none
    else some (insertV d1 (Int.tmod (idx + positions) d1.length) joker)

/-- The lower of the two joker indices used by `tripleCut`. -/
def jokerLo (d : List Card) : Nat :=
  (if indexOfFrom JOKER_A d 0 > indexOfFrom JOKER_B d 0 then indexOfFrom JOKER_B d 0
   else indexOfFrom JOKER_A d 0).toNat

/-- The higher of the two joker indices used by `tripleCut`. -/
def jokerHi (d : List Card) : Nat :=
  (if indexOfFrom JOKER_A d 0 > indexOfFrom JOKER_B d 0 then indexOfFrom JOKER_A d 0
   else indexOfFrom JOKER_B d 0).toNat

/-- Cards left by `tripleCut`; `inPlace` tells whether the inner `append(middle, top...)`
found room in the backing array, in which case the first cards of `bottom` have been
overwritten by `top`. -/
def tripleCutV (inPlace : Bool) (d : List Card) : List Card :=
  if indexOfFrom JOKER_A d 0 = -1 ∨ indexOfFrom JOKER_B d 0 = -1 then d
  else
    let idxA := jokerLo d
    let idxB := jokerHi d
    let top := d.take idxA
    let middle := (d.drop idxA).take (idxB + 1 - idxA)
    let bottom := d.drop (idxB + 1)
    (if inPlace then (top ++ bottom.drop idxA).take bottom.length else bottom) ++ middle ++ top

/-- Cards left by `countCut`. -/
def countCutV (d : List Card) : Option (List Card) :=
  match d.getLast? with
  | none => none
  | some bottom =>
    match cardValue bottom with
    | none => none
    | some bottomValue =>
      if bottomValue ≥ d.length then some d
      else
        let v := bottomValue.toNat
        let d1 := (d.drop v).take (d.length - 1 - v) ++ d.take v
        match d1.getLast? with
        | none => none
        | some last => some (d1 ++ [last])

/-- Value of `getOutputCard` as a function of the visible cards. -/
def getOutputCardV (d : List Card) : Option Int := getOutputCard ⟨d, []⟩

/-- Whether `tripleCut` is independent of the capacity on this deck: either overwriting changes
nothing, or the inner `append` fits in the length of the deck itself (the capacity is never
below the length). -/
def robustCut (d : List Card) : Bool :=
  (tripleCutV true d == tripleCutV false d) || decide (jokerLo d + jokerHi d + 1 ≤ d.length)

/-- One keystream round on the visible cards, with the inner `append` of `tripleCut` in
place. -/
def roundV (d : List Card) : Option (List Card × Int) :=
  match moveJokerV d JOKER_A 1 with
  | none => none
  | some d1 =>
    match moveJokerV d1 JOKER_B 2 with
    | none => none
    | some d2 =>
      match countCutV (tripleCutV true d2) with
      | none => none
      | some d4 =>
        match getOutputCardV d4 with
        | none => none
        | some v => some (d4, v)

/-- The `tripleCut` of the round that starts from `d` does not depend on the capacity. -/
def robustRound (d : List Card) : Bool :=
  match moveJokerV d JOKER_A 1 with
  | none => true
  | some d1 =>
    match moveJokerV d1 JOKER_B 2 with
    | none => true
    | some d2 => robustCut d2

/-- The keystream loop on the visible cards; `none` when a round is met whose `tripleCut`
depends on the capacity. -/
def loopV : Nat → Nat → List Card → List Int → Option (Run (List Int × List Card))
  | 0, n, d, stream =>
    some (if stream.length < n then Run.timeout else Run.done (stream, d))
  | fuel + 1, n, d, stream =>
    if stream.length < n then
      if robustRound d then
        match roundV d with
        | none => some Run.crash
        | some (d', v) => loopV fuel n d' (if v ≠ -1 then stream ++ [v] else stream)
      else none
    else some (Run.done (stream, d))

/-- The decks met in the first `k` rounds from `d`, each with the number of keystream
values collected before the round. -/
def orbit : Nat → List Card → Nat → List (List Card × Nat)
  | 0, _, _ => []
  | k + 1, d, outs =>
    (d, outs) ::
      match roundV d with
      | none => []
      | some (d', v) => orbit k d' (if v ≠ -1 then outs + 1 else outs)

/-- Every round that starts in `trap` with fewer than `n` values collected is independent
of the capacity, does not panic and ends in `trap` again. -/
def trapClosed (n : Nat) (trap : List (List Card × Nat)) : Bool :=
  trap.all fun e =>
    decide (e.2 < n) && robustRound e.1 &&
      match roundV e.1 with
      | none => false
      | some (d', v) => trap.contains (d', if v ≠ -1 then e.2 + 1 else e.2)

/-- Apply a function to the result of a run. -/
def Run.map {α β : Type} (f : α → β) : Run α → Run β
  | Run.done a => Run.done (f a)
  | Run.crash => Run.crash
  | Run.timeout => Run.timeout

/-- Two cipher states with the same cards and the same capacity; the unused cells of their
backing arrays may differ. -/
def SameView (p q : PontifexCipher) : Prop := p.deck = q.deck ∧ cap p = cap q

/-- An uppercase letter `A`..`Z` (code points 65 to 90). -/
def isUpperAZ (c : Char) : Prop := 65 ≤ c.toNat ∧ c.toNat ≤ 90

instance (c : Char) : Decidable (isUpperAZ c) := by
  unfold isUpperAZ; infer_instance

/-- The value `c` of the specification for one letter and its keystream value `k`:
`(letterValue + k) mod 26` when encrypting, `(letterValue - k + 26) mod 26` when
decrypting, with `0` replaced by `26`; `letterValue = letter - 'A' + 1`. -/
def combinedSpec (encrypt : Bool) (letter : Char) (k : Int) : Int :=
  let letterValue : Int := (letter.toNat : Int) - 65 + 1
  let c : Int := if encrypt then (letterValue + k) % 26 else (letterValue - k + 26) % 26
  if c = 0 then 26 else c

/-- What can be observed of the result of `generateKeystream`: the stream, the final cards
and the final capacity. -/
def streamView (r : List Int × PontifexCipher) : List Int × List Card × Nat :=
  (r.1, r.2.deck, cap r.2)

/-- Two optional states are both absent, or both present with the same view. -/
def SameViewOpt : Option PontifexCipher → Option PontifexCipher → Prop
  | some p, some q => SameView p q
  | none, none => True
  | _, _ => False

/-- A growth policy for freshly allocated arrays: double the old capacity, or take the new
length when that is larger (the rule of the Go runtime for small slices, before it rounds
to an allocation size class). -/
def doublingGrow (oldCap newLen : Nat) : Nat :=
  if newLen > 2 * oldCap then newLen else 2 * oldCap

/-- The ordered deck bottom up: `JOKER_B`, `JOKER_A`, `KS`, ..., `2C`, `AC`. -/
def reversedDeck : List Card := orderedDeck.reverse

/-- The ordered deck with the two jokers moved right below the top card:
`AC`, `JOKER_A`, `JOKER_B`, `2C`, ..., `KS`. -/
def jokersSecondDeck : List Card :=
  "AC" :: JOKER_A :: JOKER_B :: (orderedDeck.drop 1).take 51

/-- A deck of 53 entries: the 52 ranked cards in order, then `JOKER_A`; `JOKER_B` is
missing. -/
def deckWithoutJokerB : List Card := orderedDeck.take 53

/-- A shuffled deck of the 54 cards from which the keystream loop never collects a second
value. -/
def stuckDeck : List Card :=
  ["QH", "JC", "10S", "10D", "3C", "9H", "7S", "6S", "4D", "7D", "6C", "3H", "3S", "8D",
   "2H", "QC", "8H", "2S", "JD", "AD", "AC", "8S", "7C", "3D", "AS", "8C", "10H", "AH",
   "5S", "KC", "5C", "5D", "9S", "4C", "9D", "4H", "7H", "QS", "KD", "JS", "JOKER_A", "KH",
   "KS", "4S", "JH", "5H", "QD", "6H", "2C", "6D", "10C", "9C", "JOKER_B", "2D"]

/-- The ordered ranked cards with `JOKER_A` at index 13 and `JOKER_B` at index 39. -/
def jokersApartDeck : List Card :=
  orderedDeck.take 13 ++ [JOKER_A] ++ (orderedDeck.drop 13).take 25 ++ [JOKER_B] ++
    (orderedDeck.drop 38).take 14

/-! ## The unguarded variant of `main.go`

`main.go` has the same `indexOf`, `countCut`, `getOutputCard`, `cardValue`,
`generateKeystream` and `process` as `pontifex.go`; its `remove`, `insert`, `moveJoker` and
`tripleCut` lack the guards, so their slice expressions can panic. -/

/-- Whether the Go slice expression `s[lo:hi]` is within bounds for a slice `s` of capacity
`bound`: `0 ≤ lo ≤ hi ≤ cap(s)`; otherwise it panics. -/
def sliceOk (lo hi : Int) (bound : Nat) : Bool :=
  decide (0 ≤ lo ∧ lo ≤ hi ∧ hi ≤ bound)

/-- Go `p.remove(idx)` of `main.go`: `p.deck = append(p.deck[:idx], p.deck[idx+1:]...)` with no
guard; `none` when `p.deck[:idx]` or `p.deck[idx+1:]` is out of bounds. -/
def Main.remove (grow : Nat → Nat → Nat) (p : PontifexCipher) (idx : Int) :
    Option PontifexCipher :=
  if sliceOk 0 idx (cap p) && sliceOk (idx + 1) p.deck.length (cap p) then
    some (goAppend grow (mem p) 0 idx.toNat (p.deck.drop (idx.toNat + 1)))
  else none

/-- Go `p.insert(idx, card)` of `main.go`:
`p.deck = append(p.deck[:idx], append([]Card{card}, p.deck[idx:]...)...)` with no guard;
`none` when `p.deck[:idx]` or `p.deck[idx:]` is out of bounds. -/
def Main.insert (grow : Nat → Nat → Nat) (p : PontifexCipher) (idx : Int) (card : Card) :
    Option PontifexCipher :=
  if sliceOk 0 idx (cap p) && sliceOk idx p.deck.length (cap p) then
    some (goAppend grow (mem p) 0 idx.toNat (card :: p.deck.drop idx.toNat))
  else none

/-- Go `p.moveJoker(joker, positions)` of `main.go`: no test of `idx == -1`; `none` is a
panic of `remove`, of `% len(p.deck)` on an empty deck, or of `insert`. -/
def Main.moveJoker (grow : Nat → Nat → Nat) (p : PontifexCipher) (joker : Card)
    (positions : Int) : Option PontifexCipher :=
  let idx := indexOf p joker
  match Main.remove grow p idx with
  | none => none
  | some p1 =>
    if p1.deck.length = 0 then none
    else
      let newPos := Int.tmod (idx + positions) p1.deck.length
      Main.insert grow p1 newPos joker

/-- Go `p.tripleCut()` of `main.go`: no test of the indices against `-1`; `none` when one of
`p.deck[:idxA]`, `p.deck[idxA : idxB+1]`, `p.deck[idxB+1:]` is out of bounds. -/
def Main.tripleCut (grow : Nat → Nat → Nat) (p : PontifexCipher) : Option PontifexCipher :=
  let a := indexOf p JOKER_A
  let b := indexOf p JOKER_B
  let idxA := if a > b then b else a
  let idxB := if a > b then a else b
  if sliceOk 0 idxA (cap p) && sliceOk idxA (idxB + 1) (cap p) &&
      sliceOk (idxB + 1) p.deck.length (cap p) then
    let top := p.deck.take idxA.toNat
    let m1 := appendMem (mem p) idxA.toNat (idxB.toNat + 1 - idxA.toNat) top
    let inner := appendVals (mem p) idxA.toNat (idxB.toNat + 1 - idxA.toNat) top
    some (goAppend grow m1 (idxB.toNat + 1) (p.deck.length - (idxB.toNat + 1)) inner)
  else none

/-- One iteration of the loop body of `generateKeystream` in `main.go`. -/
def Main.keystreamRound (grow : Nat → Nat → Nat) (p : PontifexCipher) :
    Option (PontifexCipher × Int) :=
  match Main.moveJoker grow p JOKER_A 1 with
  | none => none
  | some p1 =>
    match Main.moveJoker grow p1 JOKER_B 2 with
    | none => none
    | some p2 =>
      match Main.tripleCut grow p2 with
      | none => none
      | some p3 =>
        match countCut grow p3 with
        | none => none
        | some p4 =>
          match getOutputCard p4 with
          | none => none
          | some v => some (p4, v)

/-- One keystream round on the visible cards of a slice of capacity `c`.  The two `moveJoker`
calls work in place and keep the capacity, so the inner `append` of `tripleCut` is in place
exactly when `lo + hi + 1 ≤ c`. -/
def roundC (c : Nat) (d : List Card) : Option (List Card × Int) :=
  match moveJokerV d JOKER_A 1 with
  | none => none
  | some d1 =>
    match moveJokerV d1 JOKER_B 2 with
    | none => none
    | some d2 =>
      match countCutV (tripleCutV (decide (jokerLo d2 + jokerHi d2 + 1 ≤ c)) d2) with
      | none => none
      | some d4 =>
        match getOutputCardV d4 with
        | none => none
        | some v => some (d4, v)

/-! ## Go `append` on the backing array -/

theorem length_writeAt (m : List Card) (pos : Nat) (xs : List Card)
    (h : pos + xs.length ≤ m.length) : (writeAt m pos xs).length = m.length := by
  simp only [writeAt, List.length_append, List.length_take, List.length_drop]
  omega

theorem length_appendMem (m : List Card) (off n : Nat) (xs : List Card)
    (h : off + n ≤ m.length) : (appendMem m off n xs).length = m.length := by
  unfold appendMem
  split
  · exact length_writeAt m (off + n) xs (by omega)
  · rfl

theorem take_drop_writeAt (m : List Card) (off n : Nat) (xs : List Card)
    (h : off + n ≤ m.length) :
    ((writeAt m (off + n) xs).drop off).take (n + xs.length) = (m.drop off).take n ++ xs := by
  have h1 : off ≤ (m.take (off + n)).length := by
    rw [List.length_take]; omega
  have h2 : ((m.take (off + n)).drop off).length = n := by
    rw [List.length_drop, List.length_take]; omega
  unfold writeAt
  rw [List.append_assoc, List.drop_append_of_le_length h1, ← List.append_assoc,
    List.take_left' (by rw [List.length_append, h2]), List.take_drop]

theorem goAppend_deck (grow : Nat → Nat → Nat) (m : List Card) (off n : Nat)
    (xs : List Card) (h : off + n ≤ m.length) :
    (goAppend grow m off n xs).deck = appendVals m off n xs := by
  unfold goAppend
  split
  · next hfit =>
    simp only [ofMem, appendMem, if_pos hfit]
    exact take_drop_writeAt m off n xs h
  · rfl

theorem goAppend_spare_length (grow : Nat → Nat → Nat) (m : List Card) (off n : Nat)
    (xs : List Card) (h : off + n ≤ m.length) :
    (goAppend grow m off n xs).spare.length =
      if n + xs.length ≤ m.length - off then m.length - off - (n + xs.length)
      else grow (m.length - off) (n + xs.length) - (n + xs.length) := by
  unfold goAppend
  split
  · next hfit =>
    simp only [ofMem, appendMem, if_pos hfit, List.length_drop]
    rw [length_writeAt m (off + n) xs (by omega)]
  · simp only [List.length_replicate]

theorem length_appendVals (m : List Card) (off n : Nat) (xs : List Card)
    (h : off + n ≤ m.length) : (appendVals m off n xs).length = n + xs.length := by
  simp only [appendVals, List.length_append, List.length_take, List.length_drop]
  omega

/-! ## Reading the visible cards through the backing array -/

theorem length_mem (p : PontifexCipher) : (mem p).length = cap p := by
  simp [mem, cap]

theorem take_drop_mem (p : PontifexCipher) (off n : Nat) (h : off + n ≤ p.deck.length) :
    ((mem p).drop off).take n = (p.deck.drop off).take n := by
  unfold mem
  rw [List.drop_append_of_le_length (by omega), List.take_append_of_le_length]
  rw [List.length_drop]; omega

theorem take_drop_mem_rest (d s : List Card) (x : Nat) :
    ((d ++ s).drop x).take (d.length - x) = d.drop x := by
  rw [List.drop_append_eq_append_drop, List.take_left' (by rw [List.length_drop])]

/-! ## `indexOf` -/

theorem indexOfFrom_range (card : Card) (l : List Card) (i : Nat) :
    indexOfFrom card l i = -1 ∨
      ((i : Int) ≤ indexOfFrom card l i ∧ indexOfFrom card l i < (i : Int) + l.length) := by
  induction l generalizing i with
  | nil => left; rfl
  | cons c cs ih =>
    unfold indexOfFrom
    split
    · right; simp only [List.length_cons]; constructor <;> omega
    · rcases ih (i + 1) with h | h
      · left; exact h
      · right; simp only [List.length_cons]; push_cast at h ⊢; constructor <;> omega

theorem indexOf_range (p : PontifexCipher) (card : Card) :
    indexOf p card = -1 ∨ (0 ≤ indexOf p card ∧ indexOf p card < p.deck.length) := by
  have := indexOfFrom_range card p.deck 0
  simpa [indexOf] using this

theorem jokerLo_le_hi (d : List Card) : jokerLo d ≤ jokerHi d := by
  unfold jokerLo jokerHi
  split <;> apply Int.toNat_le_toNat <;> omega

theorem jokerHi_lt (d : List Card)
    (hb : indexOfFrom JOKER_B d 0 ≠ -1) : jokerHi d < d.length := by
  have h1 := indexOfFrom_range JOKER_A d 0
  have h2 := indexOfFrom_range JOKER_B d 0
  unfold jokerHi
  split <;> omega

/-! ## The visible cards after each operation -/

theorem remove_deck (grow : Nat → Nat → Nat) (p : PontifexCipher) (idx : Int) :
    (remove grow p idx).deck = removeV p.deck idx := by
  unfold remove removeV
  split
  · rfl
  · next h =>
    have hlen : 0 + idx.toNat ≤ (mem p).length := by
      rw [length_mem]; unfold cap; omega
    rw [goAppend_deck grow _ _ _ _ hlen, appendVals, take_drop_mem p 0 idx.toNat (by omega)]
    rfl

theorem insert_deck (grow : Nat → Nat → Nat) (p : PontifexCipher) (idx : Int) (card : Card) :
    (insert grow p idx card).deck = insertV p.deck idx card := by
  unfold insert insertV
  split
  · rfl
  · next h =>
    have hlen : 0 + idx.toNat ≤ (mem p).length := by
      rw [length_mem]; unfold cap; omega
    rw [goAppend_deck grow _ _ _ _ hlen, appendVals, take_drop_mem p 0 idx.toNat (by omega)]
    rfl

theorem moveJoker_deck (grow : Nat → Nat → Nat) (p : PontifexCipher) (joker : Card)
    (positions : Int) :
    (moveJoker grow p joker positions).map PontifexCipher.deck =
      moveJokerV p.deck joker positions := by
  unfold moveJoker moveJokerV
  simp only [indexOf]
  split
  · rfl
  · simp only [remove_deck, indexOf]
    split
    · rfl
    · simp only [Option.map_some', insert_deck, remove_deck]

theorem tripleCut_deck (grow : Nat → Nat → Nat) (p : PontifexCipher) :
    (tripleCut grow p).deck =
      tripleCutV (decide (jokerLo p.deck + jokerHi p.deck + 1 ≤ cap p)) p.deck := by
  unfold tripleCut tripleCutV
  simp only [indexOf]
  split
  · rfl
  · next h =>
    have hB : indexOfFrom JOKER_B p.deck 0 ≠ -1 := fun e => h (Or.inr e)
    have hlo := jokerLo_le_hi p.deck
    have hhi := jokerHi_lt p.deck hB
    have hcap : p.deck.length ≤ cap p := by unfold cap; omega
    have hm : (mem p).length = cap p := length_mem p
    change (goAppend grow (appendMem (mem p) (jokerLo p.deck)
        (jokerHi p.deck + 1 - jokerLo p.deck) (p.deck.take (jokerLo p.deck)))
        (jokerHi p.deck + 1) (p.deck.length - (jokerHi p.deck + 1))
        (appendVals (mem p) (jokerLo p.deck) (jokerHi p.deck + 1 - jokerLo p.deck)
          (p.deck.take (jokerLo p.deck)))).deck = _
    have hm1 : (appendMem (mem p) (jokerLo p.deck) (jokerHi p.deck + 1 - jokerLo p.deck)
        (p.deck.take (jokerLo p.deck))).length = cap p := by
      rw [length_appendMem _ _ _ _ (by omega), hm]
    rw [goAppend_deck grow _ _ _ _ (by omega)]
    have htop : (p.deck.take (jokerLo p.deck)).length = jokerLo p.deck := by
      rw [List.length_take]; omega
    simp only [appendVals, List.append_assoc]
    congr 1
    · -- the cells of `bottom`
      unfold appendMem
      rw [htop, hm]
      by_cases hfit : jokerLo p.deck + jokerHi p.deck + 1 ≤ cap p
      · have hfit2 : jokerHi p.deck + 1 - jokerLo p.deck + jokerLo p.deck ≤
            cap p - jokerLo p.deck := by omega
        rw [if_pos hfit2, decide_eq_true hfit]
        simp only [if_true]
        have e1 : jokerLo p.deck + (jokerHi p.deck + 1 - jokerLo p.deck) =
            jokerHi p.deck + 1 := by omega
        rw [e1, writeAt, List.append_assoc,
          List.drop_left' (by rw [List.length_take]; omega), htop,
          List.take_append_eq_append_take, List.take_append_eq_append_take, htop,
          List.length_drop, List.drop_drop]
        congr 1
        have e2 : p.deck.length - (jokerHi p.deck + 1) - jokerLo p.deck =
            p.deck.length - (jokerHi p.deck + 1 + jokerLo p.deck) := by omega
        rw [e2, mem, take_drop_mem_rest, List.take_of_length_le]
        rw [List.length_drop]
      · have hfit2 : ¬ (jokerHi p.deck + 1 - jokerLo p.deck + jokerLo p.deck ≤
            cap p - jokerLo p.deck) := by omega
        rw [if_neg hfit2, decide_eq_false hfit]
        simp only [Bool.false_eq_true, if_false]
        have := take_drop_mem_rest p.deck p.spare (jokerHi p.deck + 1)
        exact this
    · rw [take_drop_mem p _ _ (by omega)]

theorem mem_take_length (p : PontifexCipher) : (mem p).take p.deck.length = p.deck := by
  unfold mem
  exact List.take_left' rfl

theorem countCut_deck (grow : Nat → Nat → Nat) (p : PontifexCipher) :
    (countCut grow p).map PontifexCipher.deck = countCutV p.deck := by
  unfold countCut countCutV
  split
  · rfl
  · next bottom hb =>
    split
    · rfl
    · next bottomValue _ =>
      split
      · rfl
      · next h =>
        have hpos : 0 < p.deck.length := by
          cases hd : p.deck with
          | nil => rw [hd] at hb; simp at hb
          | cons _ _ => simp
        have hv : bottomValue.toNat + (p.deck.length - 1 - bottomValue.toNat) ≤
            p.deck.length := by omega
        have hcap : p.deck.length ≤ (mem p).length := by
          rw [length_mem]; unfold cap; omega
        have hp1 : (goAppend grow (mem p) bottomValue.toNat
            (p.deck.length - 1 - bottomValue.toNat) (p.deck.take bottomValue.toNat)).deck =
            (p.deck.drop bottomValue.toNat).take (p.deck.length - 1 - bottomValue.toNat) ++
              p.deck.take bottomValue.toNat := by
          rw [goAppend_deck grow _ _ _ _ (by omega), appendVals, take_drop_mem p _ _ hv]
        simp only []
        generalize goAppend grow (mem p) bottomValue.toNat
            (p.deck.length - 1 - bottomValue.toNat) (p.deck.take bottomValue.toNat) = p1 at hp1
        rw [← hp1]
        cases hl : p1.deck.getLast? with
        | none => rfl
        | some last =>
          simp only [Option.map_some']
          have hcap1 : 0 + p1.deck.length ≤ (mem p1).length := by
            rw [length_mem]; unfold cap; omega
          rw [goAppend_deck grow _ _ _ _ hcap1, appendVals, List.drop_zero, mem_take_length]

theorem getOutputCard_eq (p : PontifexCipher) : getOutputCard p = getOutputCardV p.deck := rfl

theorem tripleCut_deck_robust (grow : Nat → Nat → Nat) (p : PontifexCipher)
    (h : robustCut p.deck = true) : (tripleCut grow p).deck = tripleCutV true p.deck := by
  rw [tripleCut_deck]
  by_cases hfit : jokerLo p.deck + jokerHi p.deck + 1 ≤ cap p
  · rw [decide_eq_true hfit]
  · rw [decide_eq_false hfit]
    unfold robustCut at h
    rcases Bool.or_eq_true _ _ ▸ h with h1 | h2
    · exact (beq_iff_eq.mp h1).symm
    · have := of_decide_eq_true h2
      unfold cap at hfit
      omega

theorem keystreamRound_view (grow : Nat → Nat → Nat) (p : PontifexCipher)
    (h : robustRound p.deck = true) :
    (keystreamRound grow p).map (fun r => (r.1.deck, r.2)) = roundV p.deck := by
  unfold keystreamRound roundV
  unfold robustRound at h
  have hA := moveJoker_deck grow p JOKER_A 1
  cases h1 : moveJoker grow p JOKER_A 1 with
  | none => rw [h1] at hA; rw [← hA]; rfl
  | some p1 =>
    rw [h1] at hA
    simp only [Option.map_some'] at hA
    rw [← hA] at h ⊢
    simp only [] at h ⊢
    have hB := moveJoker_deck grow p1 JOKER_B 2
    cases h2 : moveJoker grow p1 JOKER_B 2 with
    | none => rw [h2] at hB; rw [← hB]; rfl
    | some p2 =>
      rw [h2] at hB
      simp only [Option.map_some'] at hB
      rw [← hB] at h ⊢
      simp only [] at h ⊢
      have hC := countCut_deck grow (tripleCut grow p2)
      rw [tripleCut_deck_robust grow p2 h] at hC
      cases h3 : countCut grow (tripleCut grow p2) with
      | none => rw [h3] at hC; rw [← hC]; rfl
      | some p4 =>
        rw [h3] at hC
        simp only [Option.map_some'] at hC
        rw [← hC]
        simp only [getOutputCard_eq]
        cases getOutputCardV p4.deck <;> rfl

/-! ## The keystream loop on the visible cards -/

theorem loopV_sound (grow : Nat → Nat → Nat) (fuel n : Nat) :
    ∀ (p : PontifexCipher) (stream : List Int) (r : Run (List Int × List Card)),
      loopV fuel n p.deck stream = some r →
      (generateKeystreamLoop grow fuel n p stream).map (fun x => (x.1, x.2.deck)) = r := by
  induction fuel with
  | zero =>
    intro p stream r h
    unfold loopV at h
    unfold generateKeystreamLoop
    injection h with h
    rw [← h]
    split <;> rfl
  | succ fuel ih =>
    intro p stream r h
    unfold loopV at h
    unfold generateKeystreamLoop
    by_cases hlt : stream.length < n
    · rw [if_pos hlt] at h ⊢
      by_cases hr : robustRound p.deck = true
      · rw [if_pos hr] at h
        have hv := keystreamRound_view grow p hr
        cases hk : keystreamRound grow p with
        | none =>
          rw [hk] at hv
          rw [← hv] at h
          injection h with h
        | some pv =>
          obtain ⟨p', v⟩ := pv
          rw [hk] at hv
          rw [← hv] at h
          exact ih p' _ r h
      · rw [if_neg hr] at h
        exact absurd h (by simp)
    · rw [if_neg hlt] at h ⊢
      injection h with h

theorem mem_of_contains {l : List (List Card × Nat)} {e : List Card × Nat}
    (h : l.contains e = true) : e ∈ l := by
  simpa using h

theorem loop_timeout_of_trap (grow : Nat → Nat → Nat) (n : Nat)
    (trap : List (List Card × Nat)) (hclosed : trapClosed n trap = true) (fuel : Nat) :
    ∀ (p : PontifexCipher) (stream : List Int), (p.deck, stream.length) ∈ trap →
      generateKeystreamLoop grow fuel n p stream = Run.timeout := by
  induction fuel with
  | zero =>
    intro p stream hmem
    have he := (List.all_eq_true.mp hclosed) _ hmem
    simp only [Bool.and_eq_true, decide_eq_true_eq] at he
    unfold generateKeystreamLoop
    rw [if_pos he.1.1]
  | succ fuel ih =>
    intro p stream hmem
    have he := (List.all_eq_true.mp hclosed) _ hmem
    simp only [Bool.and_eq_true, decide_eq_true_eq] at he
    obtain ⟨⟨hlt, hr⟩, hstep⟩ := he
    unfold generateKeystreamLoop
    rw [if_pos hlt]
    have hv := keystreamRound_view grow p hr
    cases hk : keystreamRound grow p with
    | none =>
      rw [hk] at hv
      rw [← hv] at hstep
      simp at hstep
    | some pv =>
      obtain ⟨p', v⟩ := pv
      rw [hk] at hv
      rw [← hv] at hstep
      simp only [Option.map_some'] at hstep
      have hin := mem_of_contains hstep
      apply ih
      by_cases hv1 : v ≠ -1
      · rw [if_pos hv1] at hin ⊢
        simpa using hin
      · rw [if_neg hv1] at hin ⊢
        exact hin

/-! ## Independence from the unused cells of the backing array -/

theorem cap_goAppend (grow : Nat → Nat → Nat) (m : List Card) (off n : Nat)
    (xs : List Card) (h : off + n ≤ m.length) :
    cap (goAppend grow m off n xs) =
      n + xs.length +
        (if n + xs.length ≤ m.length - off then m.length - off - (n + xs.length)
         else grow (m.length - off) (n + xs.length) - (n + xs.length)) := by
  unfold cap
  rw [goAppend_spare_length grow m off n xs h, goAppend_deck grow m off n xs h,
    length_appendVals m off n xs h]

theorem goAppend_sameView (grow : Nat → Nat → Nat) (m m' : List Card) (off n : Nat)
    (xs : List Card) (hlen : m.length = m'.length) (h : off + n ≤ m.length)
    (hvals : appendVals m off n xs = appendVals m' off n xs) :
    SameView (goAppend grow m off n xs) (goAppend grow m' off n xs) := by
  constructor
  · rw [goAppend_deck grow m off n xs h, goAppend_deck grow m' off n xs (hlen ▸ h), hvals]
  · rw [cap_goAppend grow m off n xs h, cap_goAppend grow m' off n xs (hlen ▸ h), hlen]

theorem sameView_mem_length {p q : PontifexCipher} (h : SameView p q) :
    (mem p).length = (mem q).length := by
  rw [length_mem, length_mem, h.2]

theorem sameView_indexOf {p q : PontifexCipher} (h : SameView p q) (card : Card) :
    indexOf p card = indexOf q card := by
  unfold indexOf; rw [h.1]

theorem remove_sameView (grow : Nat → Nat → Nat) {p q : PontifexCipher} (h : SameView p q)
    (idx : Int) : SameView (remove grow p idx) (remove grow q idx) := by
  unfold remove
  rw [h.1]
  split
  · exact h
  · next hg =>
    have hq : 0 + idx.toNat ≤ q.deck.length := by omega
    have hcq : q.deck.length ≤ (mem p).length := by
      rw [(sameView_mem_length h), length_mem]; unfold cap; omega
    apply goAppend_sameView grow _ _ _ _ _ (sameView_mem_length h) (by omega)
    unfold appendVals
    rw [take_drop_mem p 0 _ (by rw [h.1]; exact hq), take_drop_mem q 0 _ hq, h.1]

theorem insert_sameView (grow : Nat → Nat → Nat) {p q : PontifexCipher} (h : SameView p q)
    (idx : Int) (card : Card) : SameView (insert grow p idx card) (insert grow q idx card) := by
  unfold insert
  rw [h.1]
  split
  · exact h
  · next hg =>
    have hq : 0 + idx.toNat ≤ q.deck.length := by omega
    have hcq : q.deck.length ≤ (mem p).length := by
      rw [(sameView_mem_length h), length_mem]; unfold cap; omega
    apply goAppend_sameView grow _ _ _ _ _ (sameView_mem_length h) (by omega)
    unfold appendVals
    rw [take_drop_mem p 0 _ (by rw [h.1]; exact hq), take_drop_mem q 0 _ hq, h.1]

theorem moveJoker_sameView (grow : Nat → Nat → Nat) {p q : PontifexCipher}
    (h : SameView p q) (joker : Card) (positions : Int) :
    SameViewOpt (moveJoker grow p joker positions) (moveJoker grow q joker positions) := by
  unfold moveJoker
  simp only [sameView_indexOf h]
  split
  · exact h
  · have hr := remove_sameView grow h (indexOf q joker)
    rw [hr.1]
    split
    · trivial
    · exact insert_sameView grow hr _ _

theorem tripleCut_sameView (grow : Nat → Nat → Nat) {p q : PontifexCipher}
    (h : SameView p q) : SameView (tripleCut grow p) (tripleCut grow q) := by
  constructor
  · rw [tripleCut_deck, tripleCut_deck, h.1, h.2]
  · unfold tripleCut
    simp only [sameView_indexOf h]
    split
    · exact h.2
    · next hj =>
      have hB : indexOfFrom JOKER_B q.deck 0 ≠ -1 := fun e => hj (Or.inr e)
      have hlo := jokerLo_le_hi q.deck
      have hhi := jokerHi_lt q.deck hB
      have hcq : q.deck.length ≤ cap q := by unfold cap; omega
      change cap (goAppend grow (appendMem (mem p) (jokerLo q.deck)
          (jokerHi q.deck + 1 - jokerLo q.deck) (p.deck.take (jokerLo q.deck)))
          (jokerHi q.deck + 1) (p.deck.length - (jokerHi q.deck + 1))
          (appendVals (mem p) (jokerLo q.deck) (jokerHi q.deck + 1 - jokerLo q.deck)
            (p.deck.take (jokerLo q.deck)))) =
        cap (goAppend grow (appendMem (mem q) (jokerLo q.deck)
          (jokerHi q.deck + 1 - jokerLo q.deck) (q.deck.take (jokerLo q.deck)))
          (jokerHi q.deck + 1) (q.deck.length - (jokerHi q.deck + 1))
          (appendVals (mem q) (jokerLo q.deck) (jokerHi q.deck + 1 - jokerLo q.deck)
            (q.deck.take (jokerLo q.deck))))
      have hmp : (mem p).length = cap q := by rw [length_mem, h.2]
      have hmq : (mem q).length = cap q := length_mem q
      have hm1p := length_appendMem (mem p) (jokerLo q.deck)
        (jokerHi q.deck + 1 - jokerLo q.deck) (p.deck.take (jokerLo q.deck)) (by omega)
      have hm1q := length_appendMem (mem q) (jokerLo q.deck)
        (jokerHi q.deck + 1 - jokerLo q.deck) (q.deck.take (jokerLo q.deck)) (by omega)
      rw [cap_goAppend grow _ _ _ _ (by rw [hm1p, h.1]; omega),
        cap_goAppend grow _ _ _ _ (by omega), hm1p, hm1q, hmp, hmq,
        length_appendVals _ _ _ _ (by omega), length_appendVals _ _ _ _ (by omega), h.1]

theorem countCut_sameView (grow : Nat → Nat → Nat) {p q : PontifexCipher}
    (h : SameView p q) : SameViewOpt (countCut grow p) (countCut grow q) := by
  unfold countCut
  rw [h.1]
  split
  · trivial
  · next bottom hb =>
    split
    · trivial
    · next bottomValue _ =>
      split
      · exact h
      · next hlt =>
        have hpos : 0 < q.deck.length := by
          cases hd : q.deck with
          | nil => rw [hd] at hb; simp at hb
          | cons _ _ => simp
        have hv : bottomValue.toNat + (q.deck.length - 1 - bottomValue.toNat) ≤
            q.deck.length := by omega
        have hcq : q.deck.length ≤ (mem p).length := by
          rw [(sameView_mem_length h), length_mem]; unfold cap; omega
        have h1 : SameView
            (goAppend grow (mem p) bottomValue.toNat
              (q.deck.length - 1 - bottomValue.toNat) (q.deck.take bottomValue.toNat))
            (goAppend grow (mem q) bottomValue.toNat
              (q.deck.length - 1 - bottomValue.toNat) (q.deck.take bottomValue.toNat)) := by
          apply goAppend_sameView grow _ _ _ _ _ (sameView_mem_length h) (by omega)
          unfold appendVals
          rw [take_drop_mem p _ _ (by rw [h.1]; exact hv), take_drop_mem q _ _ hv, h.1]
        simp only []
        generalize goAppend grow (mem p) bottomValue.toNat
              (q.deck.length - 1 - bottomValue.toNat) (q.deck.take bottomValue.toNat) = p1 at h1
        generalize goAppend grow (mem q) bottomValue.toNat
              (q.deck.length - 1 - bottomValue.toNat) (q.deck.take bottomValue.toNat) = q1 at h1
        rw [h1.1]
        cases q1.deck.getLast? with
        | none => trivial
        | some last =>
          have hc1 : 0 + q1.deck.length ≤ (mem p1).length := by
            rw [(sameView_mem_length h1), length_mem]; unfold cap; omega
          apply goAppend_sameView grow _ _ _ _ _ (sameView_mem_length h1) hc1
          unfold appendVals
          rw [List.drop_zero, List.drop_zero, ← h1.1, mem_take_length, h1.1, mem_take_length]

/-! ## Values of cards and of `getOutputCard` -/

theorem lookup_bounds (key : String) (l : List (String × Int))
    (h : ∀ e ∈ l, 0 ≤ e.2 ∧ e.2 ≤ 13) :
    0 ≤ (l.lookup key).getD 0 ∧ (l.lookup key).getD 0 ≤ 13 := by
  induction l with
  | nil => simp [List.lookup]
  | cons e es ih =>
    obtain ⟨k, x⟩ := e
    unfold List.lookup
    split
    · exact h (k, x) (List.mem_cons_self _ _)
    · exact ih (fun e he => h e (List.mem_cons_of_mem _ he))

theorem rankOrder_bounds (key : String) :
    0 ≤ (rankOrder.lookup key).getD 0 ∧ (rankOrder.lookup key).getD 0 ≤ 13 :=
  lookup_bounds key rankOrder (by decide)

theorem cardValue_bounds (card : Card) (x : Int) (h : cardValue card = some x) :
    x = 53 ∨ (0 ≤ x ∧ x ≤ 13) := by
  unfold cardValue at h
  split at h
  · left; injection h with h; exact h.symm
  · split at h
    · exact absurd h (by simp)
    · split at h
      · right; injection h with h; rw [← h]; exact rankOrder_bounds _
      · right; injection h with h; omega

theorem getOutputCardV_bounds (d : List Card) (v : Int) (h : getOutputCardV d = some v) :
    v = -1 ∨ (0 ≤ v ∧ v ≤ 13) := by
  unfold getOutputCardV getOutputCard at h
  split at h
  · exact absurd h (by simp)
  · split at h
    · exact absurd h (by simp)
    · split at h
      · left; injection h with h; exact h.symm
      · split at h
        · exact absurd h (by simp)
        · split at h
          · exact absurd h (by simp)
          · next output ho =>
            have hb := cardValue_bounds _ _ ho
            split at h
            · left; injection h with h; exact h.symm
            · split at h
              · omega
              · right; injection h with h; omega

theorem keystreamRound_output (grow : Nat → Nat → Nat) (p p' : PontifexCipher) (v : Int)
    (h : keystreamRound grow p = some (p', v)) : getOutputCardV p'.deck = some v := by
  unfold keystreamRound at h
  cases h1 : moveJoker grow p JOKER_A 1 with
  | none => rw [h1] at h; exact absurd h (by simp)
  | some p1 =>
    rw [h1] at h
    dsimp only at h
    cases h2 : moveJoker grow p1 JOKER_B 2 with
    | none => rw [h2] at h; exact absurd h (by simp)
    | some p2 =>
      rw [h2] at h
      dsimp only at h
      cases h3 : countCut grow (tripleCut grow p2) with
      | none => rw [h3] at h; exact absurd h (by simp)
      | some p4 =>
        rw [h3] at h
        dsimp only at h
        cases h4 : getOutputCard p4 with
        | none => rw [h4] at h; exact absurd h (by simp)
        | some w =>
          rw [h4] at h
          dsimp only at h
          injection h with h
          injection h with ha hb
          rw [← ha, ← hb, ← getOutputCard_eq]
          exact h4

theorem keystreamRound_bounds (grow : Nat → Nat → Nat) (p p' : PontifexCipher) (v : Int)
    (h : keystreamRound grow p = some (p', v)) : v = -1 ∨ (0 ≤ v ∧ v ≤ 13) :=
  getOutputCardV_bounds _ _ (keystreamRound_output grow p p' v h)

/-! ## General facts about the keystream loop -/

theorem loop_length (grow : Nat → Nat → Nat) (fuel n : Nat) :
    ∀ (p : PontifexCipher) (stream k : List Int) (p' : PontifexCipher),
      stream.length ≤ n → generateKeystreamLoop grow fuel n p stream = Run.done (k, p') →
      k.length = n := by
  induction fuel with
  | zero =>
    intro p stream k p' hle h
    unfold generateKeystreamLoop at h
    split at h
    · exact absurd h (by simp)
    · injection h with h; injection h with h1 h2; rw [← h1]; omega
  | succ fuel ih =>
    intro p stream k p' hle h
    unfold generateKeystreamLoop at h
    split at h
    · next hlt =>
      split at h
      · exact absurd h (by simp)
      · next q v _ =>
        apply ih q _ k p' _ h
        split
        · simp only [List.length_append, List.length_singleton]; omega
        · exact hle
    · injection h with h; injection h with h1 h2; rw [← h1]; omega

theorem loop_bounds (grow : Nat → Nat → Nat) (fuel n : Nat) :
    ∀ (p : PontifexCipher) (stream k : List Int) (p' : PontifexCipher),
      (∀ v ∈ stream, 0 ≤ v ∧ v ≤ 13) →
      generateKeystreamLoop grow fuel n p stream = Run.done (k, p') →
      ∀ v ∈ k, 0 ≤ v ∧ v ≤ 13 := by
  induction fuel with
  | zero =>
    intro p stream k p' hs h
    unfold generateKeystreamLoop at h
    split at h
    · exact absurd h (by simp)
    · injection h with h; injection h with h1 h2; rw [← h1]; exact hs
  | succ fuel ih =>
    intro p stream k p' hs h
    unfold generateKeystreamLoop at h
    split at h
    · split at h
      · exact absurd h (by simp)
      · next q v hq =>
        apply ih q _ k p' _ h
        have hb := keystreamRound_bounds grow p q v hq
        split
        · next hv =>
          intro w hw
          rcases List.mem_append.mp hw with hw | hw
          · exact hs w hw
          · rw [List.mem_singleton.mp hw]; omega
        · exact hs
    · injection h with h; injection h with h1 h2; rw [← h1]; exact hs

theorem loop_fuel_mono (grow : Nat → Nat → Nat) (fuel n : Nat) :
    ∀ (p : PontifexCipher) (stream : List Int) (r : List Int × PontifexCipher) (extra : Nat),
      generateKeystreamLoop grow fuel n p stream = Run.done r →
      generateKeystreamLoop grow (fuel + extra) n p stream = Run.done r := by
  induction fuel with
  | zero =>
    intro p stream r extra h
    unfold generateKeystreamLoop at h
    split at h
    · exact absurd h (by simp)
    · next hlt =>
      cases extra with
      | zero => unfold generateKeystreamLoop; rw [if_neg hlt]; exact h
      | succ e =>
        simp only [Nat.zero_add]
        unfold generateKeystreamLoop; rw [if_neg hlt]; exact h
  | succ fuel ih =>
    intro p stream r extra h
    rw [Nat.add_right_comm]
    unfold generateKeystreamLoop at h ⊢
    split at h
    · next hlt =>
      rw [if_pos hlt]
      split at h
      · exact absurd h (by simp)
      · next q v hq =>
        exact ih q _ r extra h
    · next hlt =>
      rw [if_neg hlt]; exact h

/-! ## Runs from two states with the same view -/

theorem keystreamRound_sameView (grow : Nat → Nat → Nat) {p q : PontifexCipher}
    (h : SameView p q) :
    (keystreamRound grow p = none ∧ keystreamRound grow q = none) ∨
    ∃ p' q' v, keystreamRound grow p = some (p', v) ∧ keystreamRound grow q = some (q', v) ∧
      SameView p' q' := by
  unfold keystreamRound
  have hA := moveJoker_sameView grow h JOKER_A 1
  generalize moveJoker grow p JOKER_A 1 = a at hA ⊢
  generalize moveJoker grow q JOKER_A 1 = a' at hA ⊢
  cases a with
  | none =>
    cases a' with
    | none => left; exact ⟨rfl, rfl⟩
    | some q1 => exact absurd hA (by simp [SameViewOpt])
  | some p1 =>
    cases a' with
    | none => exact absurd hA (by simp [SameViewOpt])
    | some q1 =>
      have hA' : SameView p1 q1 := hA
      have hB := moveJoker_sameView grow hA' JOKER_B 2
      dsimp only
      generalize moveJoker grow p1 JOKER_B 2 = b at hB ⊢
      generalize moveJoker grow q1 JOKER_B 2 = b' at hB ⊢
      cases b with
      | none =>
        cases b' with
        | none => left; exact ⟨rfl, rfl⟩
        | some q2 => exact absurd hB (by simp [SameViewOpt])
      | some p2 =>
        cases b' with
        | none => exact absurd hB (by simp [SameViewOpt])
        | some q2 =>
          have hB' : SameView p2 q2 := hB
          have hC := countCut_sameView grow (tripleCut_sameView grow hB')
          dsimp only
          generalize countCut grow (tripleCut grow p2) = c at hC ⊢
          generalize countCut grow (tripleCut grow q2) = c' at hC ⊢
          cases c with
          | none =>
            cases c' with
            | none => left; exact ⟨rfl, rfl⟩
            | some q4 => exact absurd hC (by simp [SameViewOpt])
          | some p4 =>
            cases c' with
            | none => exact absurd hC (by simp [SameViewOpt])
            | some q4 =>
              have hC' : SameView p4 q4 := hC
              dsimp only
              simp only [getOutputCard_eq, hC'.1]
              cases getOutputCardV q4.deck with
              | none => left; exact ⟨rfl, rfl⟩
              | some v => right; exact ⟨p4, q4, v, rfl, rfl, hC'⟩

theorem loop_sameView (grow : Nat → Nat → Nat) (fuel n : Nat) :
    ∀ (p q : PontifexCipher) (stream : List Int), SameView p q →
      (generateKeystreamLoop grow fuel n p stream).map streamView =
        (generateKeystreamLoop grow fuel n q stream).map streamView := by
  induction fuel with
  | zero =>
    intro p q stream h
    unfold generateKeystreamLoop
    split
    · rfl
    · simp only [Run.map, streamView, h.1, h.2]
  | succ fuel ih =>
    intro p q stream h
    unfold generateKeystreamLoop
    split
    · rcases keystreamRound_sameView grow h with ⟨h1, h2⟩ | ⟨p', q', v, h1, h2, h3⟩
      · rw [h1, h2]
      · rw [h1, h2]
        exact ih p' q' _ h3
    · simp only [Run.map, streamView, h.1, h.2]

/-! ## The cipher processor on messages of letters -/

theorem utf8Size_ascii (c : Char) (h : c.toNat < 128) : c.utf8Size = 1 := by
  unfold Char.utf8Size
  have : c.val ≤ UInt32.ofNatCore 127 (by decide) := by
    rw [UInt32.le_def]
    show c.val.toNat ≤ 127
    unfold Char.toNat at h
    omega
  simp only [this, if_true]

theorem byteLen_upper (cs : List Char) (h : ∀ c ∈ cs, isUpperAZ c) : byteLen cs = cs.length := by
  induction cs with
  | nil => rfl
  | cons c cs ih =>
    have hc := h c (List.mem_cons_self _ _)
    unfold isUpperAZ at hc
    unfold byteLen
    rw [utf8Size_ascii c (by omega), ih (fun d hd => h d (List.mem_cons_of_mem _ hd)),
      List.length_cons]
    omega

theorem toUpperRune_upper (u : Char → Char) (c : Char) (h : isUpperAZ c) :
    toUpperRune u c = c := by
  unfold isUpperAZ at h
  unfold toUpperRune
  rw [if_pos (by omega), if_neg (by omega)]

theorem normalize_upper (u : Char → Char) (msg : String) (h : ∀ c ∈ msg.data, isUpperAZ c) :
    normalize u msg = msg.data := by
  unfold normalize
  have h1 : msg.data.map (toUpperRune u) = msg.data := by
    conv_rhs => rw [← List.map_id msg.data]
    apply List.map_congr_left
    intro c hc
    exact toUpperRune_upper u c (h c hc)
  rw [h1, List.filter_eq_self]
  intro c hc
  have := h c hc
  unfold isUpperAZ at this
  simp only [ne_eq, decide_not, Bool.not_eq_eq_eq_not, Bool.not_true, decide_eq_false_iff_not]
  intro e
  rw [e] at this
  revert this
  decide

theorem processLoop_upper (encrypt : Bool) (keystream : List Int) :
    ∀ (cs : List Char) (i : Nat), (∀ c ∈ cs, isUpperAZ c) → i + cs.length ≤ keystream.length →
      processLoop encrypt keystream cs i =
        some (List.zipWith (cipherByte encrypt) cs (keystream.drop i)) := by
  intro cs
  induction cs with
  | nil => intro i _ _; rfl
  | cons c cs ih =>
    intro i h hlen
    have hc := h c (List.mem_cons_self _ _)
    unfold isUpperAZ at hc
    simp only [List.length_cons] at hlen
    have hi : i < keystream.length := by omega
    unfold processLoop
    rw [List.getElem?_eq_getElem hi, utf8Size_ascii c (by omega)]
    dsimp only
    rw [ih (i + 1) (fun d hd => h d (List.mem_cons_of_mem _ hd)) (by omega)]
    dsimp only
    rw [List.drop_eq_getElem_cons hi, List.zipWith_cons_cons]

theorem cipherByte_eq_spec (encrypt : Bool) (c : Char) (kv : Int) (hc : isUpperAZ c)
    (hk : 0 ≤ kv ∧ kv ≤ 13) :
    (cipherByte encrypt c kv : Int) = 65 + combinedSpec encrypt c kv - 1 ∧
      1 ≤ combinedSpec encrypt c kv ∧ combinedSpec encrypt c kv ≤ 26 := by
  unfold isUpperAZ at hc
  unfold cipherByte combinedSpec
  cases encrypt
  · simp only [Bool.false_eq_true, if_false]
    rw [Int.tmod_eq_emod (by omega) (by omega)]
    split <;> omega
  · simp only [if_true]
    rw [Int.tmod_eq_emod (by omega) (by omega)]
    split <;> omega

theorem cipherByte_upper (encrypt : Bool) (c : Char) (kv : Int) (hc : isUpperAZ c)
    (hk : 0 ≤ kv ∧ kv ≤ 13) : 65 ≤ cipherByte encrypt c kv ∧ cipherByte encrypt c kv ≤ 90 := by
  have := cipherByte_eq_spec encrypt c kv hc hk
  omega

theorem toNat_ofNat_upper (n : Nat) (h : 65 ≤ n ∧ n ≤ 90) : (Char.ofNat n).toNat = n := by
  obtain ⟨h1, h2⟩ := h
  interval_cases n <;> rfl

theorem isUpperAZ_ofNat (n : Nat) (h : 65 ≤ n ∧ n ≤ 90) : isUpperAZ (Char.ofNat n) := by
  unfold isUpperAZ
  rw [toNat_ofNat_upper n h]
  exact h

theorem cipherByte_round_trip (c : Char) (kv : Int) (hc : isUpperAZ c)
    (hk : 0 ≤ kv ∧ kv ≤ 13) :
    cipherByte false (Char.ofNat (cipherByte true c kv)) kv = c.toNat := by
  have hb := cipherByte_upper true c kv hc hk
  have he := (cipherByte_eq_spec true c kv hc hk).1
  have hd := (cipherByte_eq_spec false (Char.ofNat (cipherByte true c kv)) kv
    (isUpperAZ_ofNat _ hb) hk).1
  rw [combinedSpec, toNat_ofNat_upper _ hb] at hd
  unfold combinedSpec at he
  unfold isUpperAZ at hc
  simp only [Bool.false_eq_true, if_false] at hd
  simp only [if_true] at he
  have : ((cipherByte false (Char.ofNat (cipherByte true c kv)) kv : Nat) : Int) =
      (c.toNat : Int) := by
    split at he <;> split at hd <;> omega
  exact_mod_cast this

theorem mem_zipWith_cipherByte (encrypt : Bool) (b : Nat) :
    ∀ (cs : List Char) (k : List Int), b ∈ List.zipWith (cipherByte encrypt) cs k →
      ∃ x kv, x ∈ cs ∧ kv ∈ k ∧ cipherByte encrypt x kv = b := by
  intro cs
  induction cs with
  | nil => intro k h; simp at h
  | cons c cs ih =>
    intro k h
    cases k with
    | nil => simp at h
    | cons v k =>
      simp only [List.zipWith_cons_cons, List.mem_cons] at h
      rcases h with h | h
      · exact ⟨c, v, List.mem_cons_self _ _, List.mem_cons_self _ _, h.symm⟩
      · obtain ⟨x, kv, hx, hkv, he⟩ := ih k h
        exact ⟨x, kv, List.mem_cons_of_mem _ hx, List.mem_cons_of_mem _ hkv, he⟩

theorem zipWith_round_trip :
    ∀ (cs : List Char) (k : List Int), (∀ c ∈ cs, isUpperAZ c) →
      (∀ v ∈ k, 0 ≤ v ∧ v ≤ 13) → cs.length ≤ k.length →
      List.zipWith (cipherByte false)
        ((List.zipWith (cipherByte true) cs k).map Char.ofNat) k = cs.map Char.toNat := by
  intro cs
  induction cs with
  | nil => intro k _ _ _; simp
  | cons c cs ih =>
    intro k hcs hk hlen
    cases k with
    | nil => simp at hlen
    | cons v k =>
      simp only [List.zipWith_cons_cons, List.map_cons]
      rw [cipherByte_round_trip c v (hcs c (List.mem_cons_self _ _))
        (hk v (List.mem_cons_self _ _)),
        ih k (fun d hd => hcs d (List.mem_cons_of_mem _ hd))
          (fun w hw => hk w (List.mem_cons_of_mem _ hw))
          (by simp only [List.length_cons] at hlen; omega)]

/-! ## Evaluating the operations on a given deck, whatever the capacity -/

theorem countCut_eval (grow : Nat → Nat → Nat) (p : PontifexCipher) (D : List Card)
    (h : countCutV p.deck = some D) : ∃ p', countCut grow p = some p' ∧ p'.deck = D := by
  have hd := countCut_deck grow p
  rw [h] at hd
  cases hc : countCut grow p with
  | none => rw [hc] at hd; exact absurd hd (by simp)
  | some p' =>
    rw [hc] at hd
    simp only [Option.map_some', Option.some.injEq] at hd
    exact ⟨p', rfl, hd⟩

theorem keystreamRound_eval (grow : Nat → Nat → Nat) (p : PontifexCipher) (D : List Card)
    (v : Int) (hr : robustRound p.deck = true) (h : roundV p.deck = some (D, v)) :
    ∃ p', keystreamRound grow p = some (p', v) ∧ p'.deck = D := by
  have hd := keystreamRound_view grow p hr
  rw [h] at hd
  cases hc : keystreamRound grow p with
  | none => rw [hc] at hd; exact absurd hd (by simp)
  | some r =>
    obtain ⟨p', w⟩ := r
    rw [hc] at hd
    simp only [Option.map_some', Option.some.injEq, Prod.mk.injEq] at hd
    exact ⟨p', by rw [hd.2], hd.1⟩

theorem generateKeystream_eval (grow : Nat → Nat → Nat) (p : PontifexCipher) (fuel n : Nat)
    (k : List Int) (D : List Card) (h : loopV fuel n p.deck [] = some (Run.done (k, D)))
    (extra : Nat) :
    ∃ p', generateKeystream grow (fuel + extra) n p = Run.done (k, p') ∧ p'.deck = D := by
  have hs := loopV_sound grow fuel n p [] _ h
  cases hl : generateKeystreamLoop grow fuel n p [] with
  | crash => rw [hl] at hs; exact absurd hs (by simp [Run.map])
  | timeout => rw [hl] at hs; exact absurd hs (by simp [Run.map])
  | done r =>
    obtain ⟨k', p'⟩ := r
    rw [hl] at hs
    simp only [Run.map, Run.done.injEq, Prod.mk.injEq] at hs
    refine ⟨p', ?_, hs.2⟩
    have := loop_fuel_mono grow fuel n p [] (k', p') extra hl
    rw [hs.1] at this
    exact this

theorem moveJoker_absent (grow : Nat → Nat → Nat) (p : PontifexCipher) (joker : Card)
    (positions : Int) (h : indexOf p joker = -1) :
    moveJoker grow p joker positions = some p := by
  unfold moveJoker
  simp only [h, if_true]

theorem tripleCut_absent (grow : Nat → Nat → Nat) (p : PontifexCipher)
    (h : indexOf p JOKER_A = -1 ∨ indexOf p JOKER_B = -1) : tripleCut grow p = p := by
  unfold tripleCut
  simp only [h, if_true]

/-! ## `countCut` on a deck whose bottom card has a value below the length -/

theorem countCutV_cut (d : List Card) (bottom : Card) (v : Int)
    (hb : d.getLast? = some bottom) (hv : cardValue bottom = some v) (h1 : 1 ≤ v)
    (h2 : v < d.length) :
    ∃ x, d[v.toNat - 1]? = some x ∧
      countCutV d = some ((d.drop v.toNat).take (d.length - 1 - v.toNat) ++
        d.take v.toNat ++ [x]) := by
  have hidx : v.toNat - 1 < d.length := by omega
  refine ⟨d[v.toNat - 1], List.getElem?_eq_getElem hidx, ?_⟩
  unfold countCutV
  rw [hb]
  dsimp only
  rw [hv]
  dsimp only
  rw [if_neg (by omega)]
  have htake : d.take v.toNat ≠ [] := by
    intro e
    have := congrArg List.length e
    rw [List.length_take] at this
    simp only [List.length_nil] at this
    omega
  have hlast : ((d.drop v.toNat).take (d.length - 1 - v.toNat) ++ d.take v.toNat).getLast? =
      some d[v.toNat - 1] := by
    rw [List.getLast?_append_of_ne_nil _ htake, List.getLast?_eq_getElem?, List.length_take,
      List.getElem?_take]
    have e : min v.toNat d.length - 1 = v.toNat - 1 := by omega
    rw [e, if_pos (by omega), List.getElem?_eq_getElem hidx]
  rw [hlast]

/-! ## `moveJoker` keeps the cards -/

theorem indexOfFrom_getElem (card : Card) :
    ∀ (l : List Card) (i : Nat), indexOfFrom card l i ≠ -1 →
      l[(indexOfFrom card l i - i).toNat]? = some card := by
  intro l
  induction l with
  | nil => intro i h; exact absurd rfl h
  | cons c cs ih =>
    intro i h
    unfold indexOfFrom at h ⊢
    split
    · next hc => simp [hc]
    · next hc =>
      rw [if_neg hc] at h
      have hr := indexOfFrom_range card cs (i + 1)
      have := ih (i + 1) h
      have e : (indexOfFrom card cs (i + 1) - (i : Int)).toNat =
          (indexOfFrom card cs (i + 1) - ((i + 1 : Nat) : Int)).toNat + 1 := by
        push_cast; omega
      rw [e, List.getElem?_cons_succ]
      exact this

theorem removeV_perm (d : List Card) (idx : Int) (card : Card) (h0 : 0 ≤ idx)
    (hc : d[idx.toNat]? = some card) : (card :: removeV d idx).Perm d := by
  have hlt : idx.toNat < d.length := by
    by_contra hge
    rw [List.getElem?_eq_none (by omega)] at hc
    exact absurd hc (by simp)
  unfold removeV
  rw [if_neg (by omega)]
  have hget : d[idx.toNat] = card := by
    rw [List.getElem?_eq_getElem hlt] at hc
    injection hc
  have hsplit : d = d.take idx.toNat ++ card :: d.drop (idx.toNat + 1) := by
    rw [← hget, ← List.drop_eq_getElem_cons hlt, List.take_append_drop]
  conv_rhs => rw [hsplit]
  exact List.perm_middle.symm

theorem insertV_perm (d : List Card) (idx : Int) (card : Card) (h0 : 0 ≤ idx)
    (h1 : idx ≤ d.length) : (insertV d idx card).Perm (card :: d) := by
  unfold insertV
  rw [if_neg (by omega)]
  have := @List.perm_middle _ card (d.take idx.toNat) (d.drop idx.toNat)
  rw [List.take_append_drop] at this
  exact this

theorem moveJokerV_perm (d : List Card) (joker : Card) (positions : Int)
    (hpos : 0 ≤ positions) (d' : List Card) (h : moveJokerV d joker positions = some d') :
    d'.Perm d := by
  unfold moveJokerV at h
  dsimp only at h
  split at h
  · injection h with h; rw [h]
  · next hidx =>
    split at h
    · exact absurd h (by simp)
    · next hlen =>
      injection h with h
      rw [← h]
      have hr := indexOfFrom_range joker d 0
      have hget := indexOfFrom_getElem joker d 0 hidx
      simp only [Int.Nat.cast_ofNat_Int, sub_zero] at hget
      have hnn : 0 ≤ indexOfFrom joker d 0 := by omega
      have hp1 := removeV_perm d _ joker hnn hget
      have hlpos : (0 : Int) < ((removeV d (indexOfFrom joker d 0)).length : Int) := by
        omega
      have hm0 : 0 ≤ Int.tmod (indexOfFrom joker d 0 + positions)
          (removeV d (indexOfFrom joker d 0)).length :=
        Int.tmod_nonneg _ (by omega)
      have hm1 : Int.tmod (indexOfFrom joker d 0 + positions)
          (removeV d (indexOfFrom joker d 0)).length <
          (removeV d (indexOfFrom joker d 0)).length :=
        Int.tmod_lt_of_pos _ hlpos
      exact (insertV_perm _ _ joker hm0 (by omega)).trans hp1

theorem moveJoker_perm (grow : Nat → Nat → Nat) (p p' : PontifexCipher) (joker : Card)
    (positions : Int) (hpos : 0 ≤ positions)
    (h : moveJoker grow p joker positions = some p') : p'.deck.Perm p.deck := by
  have hd := moveJoker_deck grow p joker positions
  rw [h] at hd
  exact moveJokerV_perm p.deck joker positions hpos p'.deck hd.symm

set_option maxRecDepth 100000 in
/-- The capacity of the slice matters: from the same 54 distinct cards the first keystream
value is 6 when the slice has capacity 54 and 4 when it has capacity 64, because only in the
second case the inner `append` of `tripleCut` finds room and overwrites `bottom`. -/
theorem keystream_depends_on_capacity :
    validDeck jokersApartDeck ∧
    (generateKeystream doublingGrow 1 1 (NewPontifexCipher jokersApartDeck [])).map
      Prod.fst = Run.done [6] ∧
    (generateKeystream doublingGrow 1 1
      (NewPontifexCipher jokersApartDeck (List.replicate 10 ""))).map Prod.fst =
      Run.done [4] := by
  decide

/-! ## The capacity through one round -/

theorem remove_cap (grow : Nat → Nat → Nat) (p : PontifexCipher) (idx : Int) :
    cap (remove grow p idx) = cap p := by
  unfold remove
  split
  · rfl
  · next h =>
    have hc : p.deck.length ≤ cap p := by unfold cap; omega
    rw [cap_goAppend grow _ _ _ _ (by rw [length_mem]; omega), length_mem]
    simp only [List.length_drop]
    split <;> omega

theorem insert_cap (grow : Nat → Nat → Nat) (p : PontifexCipher) (idx : Int) (card : Card)
    (h : p.deck.length + 1 ≤ cap p) : cap (insert grow p idx card) = cap p := by
  unfold insert
  split
  · rfl
  · next hg =>
    rw [cap_goAppend grow _ _ _ _ (by rw [length_mem]; omega), length_mem]
    simp only [List.length_cons, List.length_drop]
    split <;> omega

theorem moveJoker_cap (grow : Nat → Nat → Nat) (p p' : PontifexCipher) (joker : Card)
    (positions : Int) (h : moveJoker grow p joker positions = some p') : cap p' = cap p := by
  unfold moveJoker at h
  dsimp only at h
  split at h
  · injection h with h; rw [← h]
  · next hidx =>
    split at h
    · exact absurd h (by simp)
    · injection h with h
      have hr := indexOf_range p joker
      have hi : (indexOf p joker).toNat < p.deck.length := by omega
      have hl : (remove grow p (indexOf p joker)).deck.length = p.deck.length - 1 := by
        rw [remove_deck]
        unfold removeV
        rw [if_neg (by omega)]
        simp only [List.length_append, List.length_take, List.length_drop]
        omega
      have hc : p.deck.length ≤ cap p := by unfold cap; omega
      rw [← h, insert_cap grow _ _ _ (by rw [hl, remove_cap]; omega), remove_cap]

theorem keystreamRound_capView (grow : Nat → Nat → Nat) (p : PontifexCipher) :
    (keystreamRound grow p).map (fun r => (r.1.deck, r.2)) = roundC (cap p) p.deck := by
  unfold keystreamRound roundC
  have hA := moveJoker_deck grow p JOKER_A 1
  cases h1 : moveJoker grow p JOKER_A 1 with
  | none => rw [h1] at hA; rw [← hA]; rfl
  | some p1 =>
    have hc1 := moveJoker_cap grow p p1 _ _ h1
    rw [h1] at hA
    simp only [Option.map_some'] at hA
    rw [← hA]
    simp only []
    have hB := moveJoker_deck grow p1 JOKER_B 2
    cases h2 : moveJoker grow p1 JOKER_B 2 with
    | none => rw [h2] at hB; rw [← hB]; rfl
    | some p2 =>
      have hc2 := moveJoker_cap grow p1 p2 _ _ h2
      rw [h2] at hB
      simp only [Option.map_some'] at hB
      rw [← hB]
      simp only []
      have hC := countCut_deck grow (tripleCut grow p2)
      rw [tripleCut_deck grow p2, hc2, hc1] at hC
      cases h3 : countCut grow (tripleCut grow p2) with
      | none => rw [h3] at hC; rw [← hC]; rfl
      | some p4 =>
        rw [h3] at hC
        simp only [Option.map_some'] at hC
        rw [← hC]
        simp only [getOutputCard_eq]
        cases getOutputCardV p4.deck <;> rfl

/-- The first keystream value, whatever the growth policy, from a slice of capacity `c`
whose first round yields a value. -/
theorem generateKeystream_first (grow : Nat → Nat → Nat) (p : PontifexCipher)
    (D : List Card) (v : Int) (hv : v ≠ -1) (h : roundC (cap p) p.deck = some (D, v)) :
    (generateKeystream grow 1 1 p).map Prod.fst = Run.done [v] := by
  have hd := keystreamRound_capView grow p
  rw [h] at hd
  cases hk : keystreamRound grow p with
  | none => rw [hk] at hd; exact absurd hd (by simp)
  | some r =>
    obtain ⟨p', w⟩ := r
    rw [hk] at hd
    simp only [Option.map_some', Option.some.injEq, Prod.mk.injEq] at hd
    unfold generateKeystream generateKeystreamLoop
    rw [if_pos (by simp), hk]
    dsimp only
    rw [hd.2, if_pos hv]
    unfold generateKeystreamLoop
    rw [if_neg (by simp)]
    rfl

set_option maxRecDepth 100000 in
/-- The first keystream value from `jokersApartDeck`, whatever the growth policy: 6 from a
slice of capacity 54, where the inner `append` of `tripleCut` finds no room
(`lo + hi + 1 = 56`), and 4 from a slice of capacity 64, where it overwrites `bottom`. -/
theorem jokersApartDeck_first (grow : Nat → Nat → Nat) (p q : PontifexCipher)
    (hp : p.deck = jokersApartDeck) (hq : q.deck = jokersApartDeck) (hcp : cap p = 54)
    (hcq : cap q = 64) :
    (generateKeystream grow 1 1 p).map Prod.fst = Run.done [6] ∧
    (generateKeystream grow 1 1 q).map Prod.fst = Run.done [4] := by
  have h6 : roundC 54 jokersApartDeck ≠ none ∧
      (roundC 54 jokersApartDeck).map Prod.snd = some 6 := by decide
  have h4 : roundC 64 jokersApartDeck ≠ none ∧
      (roundC 64 jokersApartDeck).map Prod.snd = some 4 := by decide
  constructor
  · cases hr : roundC 54 jokersApartDeck with
    | none => exact absurd hr h6.1
    | some r =>
      have hs := h6.2
      rw [hr] at hs
      simp only [Option.map_some', Option.some.injEq] at hs
      exact generateKeystream_first grow p r.1 6 (by decide)
        (by rw [hcp, hp, hr, ← hs])
  · cases hr : roundC 64 jokersApartDeck with
    | none => exact absurd hr h4.1
    | some r =>
      have hs := h4.2
      rw [hr] at hs
      simp only [Option.map_some', Option.some.injEq] at hs
      exact generateKeystream_first grow q r.1 4 (by decide)
        (by rw [hcq, hq, hr, ← hs])

/-! ## Lemmas for the claims -/

theorem process_encrypt_inv (u : Char → Char) (grow : Nat → Nat → Nat) (fuel : Nat)
    (p : PontifexCipher) (msg : String) (encrypt : Bool) (out : List Nat)
    (p' : PontifexCipher)
    (h : process u grow fuel p msg encrypt = Run.done (out, p')) :
    ∃ k, generateKeystream grow fuel (byteLen (normalize u msg)) p = Run.done (k, p') ∧
      processLoop encrypt k (normalize u msg) 0 = some out := by
  unfold process at h
  dsimp only at h
  cases hg : generateKeystream grow fuel (byteLen (normalize u msg)) p with
  | crash => rw [hg] at h; exact absurd h (by simp)
  | timeout => rw [hg] at h; exact absurd h (by simp)
  | done r =>
    obtain ⟨k, p1⟩ := r
    rw [hg] at h
    dsimp only at h
    cases hl : processLoop encrypt k (normalize u msg) 0 with
    | none => rw [hl] at h; exact absurd h (by simp)
    | some o =>
      rw [hl] at h
      dsimp only at h
      injection h with h
      injection h with h1 h2
      exact ⟨k, by rw [h2], by rw [← h1]; exact hl⟩

theorem process_of_keystream (u : Char → Char) (grow : Nat → Nat → Nat) (fuel : Nat)
    (p : PontifexCipher) (msg : String) (encrypt : Bool) (k : List Int)
    (p' : PontifexCipher) (hN : ∀ c ∈ normalize u msg, isUpperAZ c)
    (hk : generateKeystream grow fuel (normalize u msg).length p = Run.done (k, p')) :
    process u grow fuel p msg encrypt =
      Run.done (List.zipWith (cipherByte encrypt) (normalize u msg) k, p') := by
  have hlen : k.length = (normalize u msg).length := loop_length grow fuel _ p [] k p' (by simp) hk
  unfold process
  dsimp only
  rw [byteLen_upper _ hN, hk]
  dsimp only
  rw [processLoop_upper encrypt k _ 0 hN (by omega)]
  rfl

theorem round_trip_bytes (unicodeUpper : Char → Char) (grow : Nat → Nat → Nat)
    (fuel : Nat) (p q : PontifexCipher) (M : String) (C : List Nat)
    (hM : ∀ c ∈ M.data, isUpperAZ c) (hcopy : SameView q p)
    (henc : (process unicodeUpper grow fuel p M true).map Prod.fst = Run.done C) :
    (process unicodeUpper grow fuel q (asciiString C) false).map Prod.fst =
      Run.done (M.data.map Char.toNat) := by
  -- the encrypting run
  cases hp : process unicodeUpper grow fuel p M true with
  | crash => rw [hp] at henc; exact absurd henc (by simp [Run.map])
  | timeout => rw [hp] at henc; exact absurd henc (by simp [Run.map])
  | done r =>
    obtain ⟨C', p'⟩ := r
    rw [hp] at henc
    simp only [Run.map, Run.done.injEq] at henc
    subst henc
    obtain ⟨k, hk, hloop⟩ := process_encrypt_inv _ _ _ _ _ _ _ _ hp
    rw [normalize_upper unicodeUpper M hM] at hk hloop
    rw [byteLen_upper _ hM] at hk
    have hklen : k.length = M.data.length := loop_length grow fuel _ p [] k p' (by simp) hk
    have hkb : ∀ v ∈ k, 0 ≤ v ∧ v ≤ 13 :=
      loop_bounds grow fuel _ p [] k p' (by simp) hk
    rw [processLoop_upper true k _ 0 hM (by omega), List.drop_zero] at hloop
    injection hloop with hC
    -- the ciphertext is a message of uppercase letters of the same length
    have hCup : ∀ c ∈ (asciiString C').data, isUpperAZ c := by
      intro c hc
      simp only [asciiString, List.mem_map] at hc
      obtain ⟨b, hb, rfl⟩ := hc
      rw [← hC] at hb
      obtain ⟨x, kv, hx, hkv, rfl⟩ := mem_zipWith_cipherByte true b _ _ hb
      exact isUpperAZ_ofNat _ (cipherByte_upper true x kv (hM x hx) (hkb kv hkv))
    have hClen : (asciiString C').data.length = M.data.length := by
      simp only [asciiString, List.length_map]
      rw [← hC, List.length_zipWith]
      omega
    -- the keystream of the decrypting run
    have hview := loop_sameView grow fuel M.data.length q p [] hcopy
    have hk' : generateKeystreamLoop grow fuel M.data.length p [] = Run.done (k, p') := hk
    rw [hk'] at hview
    cases hq : generateKeystreamLoop grow fuel M.data.length q [] with
    | crash => rw [hq] at hview; exact absurd hview (by simp [Run.map])
    | timeout => rw [hq] at hview; exact absurd hview (by simp [Run.map])
    | done r =>
      obtain ⟨k2, q'⟩ := r
      rw [hq] at hview
      simp only [Run.map, streamView, Run.done.injEq, Prod.mk.injEq] at hview
      obtain ⟨hk2, _⟩ := hview
      subst hk2
      have hN : ∀ c ∈ normalize unicodeUpper (asciiString C'), isUpperAZ c := by
        rw [normalize_upper unicodeUpper _ hCup]; exact hCup
      have hgen : generateKeystream grow fuel
          (normalize unicodeUpper (asciiString C')).length q = Run.done (k2, q') := by
        rw [normalize_upper unicodeUpper _ hCup, hClen]; exact hq
      rw [process_of_keystream unicodeUpper grow fuel q _ false k2 q' hN hgen]
      rw [normalize_upper unicodeUpper _ hCup]
      have hdata : (asciiString C').data = C'.map Char.ofNat := rfl
      rw [hdata, ← hC, zipWith_round_trip M.data k2 hM hkb (by omega)]
      rfl

theorem asciiString_bytes (M : String) : asciiString (M.data.map Char.toNat) = M := by
  simp only [asciiString, List.map_map]
  have : M.data.map (Char.ofNat ∘ Char.toNat) = M.data := by
    conv_rhs => rw [← List.map_id M.data]
    apply List.map_congr_left
    intro c _
    exact Char.ofNat_toNat c
  rw [this]

theorem cardValue_token :
    ∀ c ∈ orderedDeck, ∃ x, cardValue c = some x ∧ (x = 53 ∨ (1 ≤ x ∧ x ≤ 13)) := by
  decide

theorem validDeck_bottom (d : List Card) (h : validDeck d) :
    ∃ bottom v, d.getLast? = some bottom ∧ cardValue bottom = some v ∧ 1 ≤ v ∧
      v < d.length ∧ v.toNat - 1 < d.length - 1 := by
  obtain ⟨hlen, _, htok⟩ := h
  have h53 : d.length - 1 < d.length := by omega
  have hlast : d.getLast? = some d[d.length - 1] := by
    rw [List.getLast?_eq_getElem?, List.getElem?_eq_getElem h53]
  obtain ⟨v, hv, hr⟩ := cardValue_token _ (htok _ (List.getElem_mem h53))
  exact ⟨_, v, hlast, hv, by omega, by omega, by omega⟩

theorem generateKeystream_eval_stream (grow : Nat → Nat → Nat) (p : PontifexCipher)
    (fuel n : Nat) (k : List Int)
    (h : (loopV fuel n p.deck []).map (Run.map Prod.fst) = some (Run.done k)) (extra : Nat) :
    ∃ p', generateKeystream grow (fuel + extra) n p = Run.done (k, p') := by
  cases hl : loopV fuel n p.deck [] with
  | none => rw [hl] at h; exact absurd h (by simp)
  | some r =>
    rw [hl] at h
    cases r with
    | crash => exact absurd h (by simp [Run.map])
    | timeout => exact absurd h (by simp [Run.map])
    | done kd =>
      obtain ⟨k', D⟩ := kd
      simp only [Option.map_some', Run.map, Option.some.injEq, Run.done.injEq] at h
      subst h
      obtain ⟨p', hp', _⟩ := generateKeystream_eval grow p fuel n k' D hl extra
      exact ⟨p', hp'⟩

set_option maxRecDepth 100000 in
theorem deckWithoutJokerB_stream :
    (loopV 1 1 deckWithoutJokerB []).map (Run.map Prod.fst) = some (Run.done [13]) := by
  decide

set_option maxRecDepth 1000000 in
set_option maxHeartbeats 4000000 in
theorem stuckDeck_trap : trapClosed 2 (orbit 8 stuckDeck 0) = true := by decide

set_option maxRecDepth 1000000 in
theorem stuckDeck_start : (stuckDeck, 0) ∈ orbit 8 stuckDeck 0 := by decide

theorem process_of_stream (u : Char → Char) (grow : Nat → Nat → Nat) (fuel : Nat)
    (p : PontifexCipher) (msg : String) (encrypt : Bool) (k : List Int)
    (hM : ∀ c ∈ msg.data, isUpperAZ c)
    (hk : (generateKeystream grow fuel msg.data.length p).map Prod.fst = Run.done k) :
    (process u grow fuel p msg encrypt).map Prod.fst =
      Run.done (List.zipWith (cipherByte encrypt) msg.data k) := by
  have hn := normalize_upper u msg hM
  cases hg : generateKeystream grow fuel msg.data.length p with
  | crash => rw [hg] at hk; exact absurd hk (by simp [Run.map])
  | timeout => rw [hg] at hk; exact absurd hk (by simp [Run.map])
  | done r =>
    obtain ⟨k', p'⟩ := r
    rw [hg] at hk
    simp only [Run.map, Run.done.injEq] at hk
    subst hk
    rw [process_of_keystream u grow fuel p msg encrypt k' p' (by rw [hn]; exact hM)
      (by rw [hn]; exact hg), hn]
    rfl

/-! ## The claims -/

set_option maxRecDepth 100000 in
/-- C1, what the code does.  For every growth policy: when the decrypting run starts from a
copy with the same cards and the same slice capacity, decrypting the ciphertext of an
all-letters message returns the message.  With the same cards in a slice of another
capacity it need not: `jokersApartDeck` is a valid 54-card deck; from a slice of capacity
54 the message `A` encrypts to `G` (keystream value 6), and from a slice of capacity 64
holding the same cards `G` decrypts to `C` (keystream value 4), not to `A`. -/
theorem round_trip_needs_equal_capacity (unicodeUpper : Char → Char)
    (grow : Nat → Nat → Nat) :
    (∀ (fuel : Nat) (p q : PontifexCipher) (M : String) (C : List Nat),
      (∀ c ∈ M.data, isUpperAZ c) → SameView q p →
      (process unicodeUpper grow fuel p M true).map Prod.fst = Run.done C →
      ∃ out, (process unicodeUpper grow fuel q (asciiString C) false).map Prod.fst =
        Run.done out ∧ asciiString out = M) ∧
    validDeck jokersApartDeck ∧
    ∀ p q : PontifexCipher, p.deck = jokersApartDeck → q.deck = jokersApartDeck →
      cap p = 54 → cap q = 64 →
      (process unicodeUpper grow 1 p "A" true).map Prod.fst = Run.done [71] ∧
      asciiString [71] = "G" ∧
      (process unicodeUpper grow 1 q (asciiString [71]) false).map Prod.fst =
        Run.done [67] ∧
      asciiString [67] = "C" ∧ asciiString [67] ≠ "A" := by
  refine ⟨?_, by decide, ?_⟩
  · intro fuel p q M C hM hcopy henc
    exact ⟨_, round_trip_bytes unicodeUpper grow fuel p q M C hM hcopy henc,
      asciiString_bytes M⟩
  · intro p q hp hq hcp hcq
    obtain ⟨kp, kq⟩ := jokersApartDeck_first grow p q hp hq hcp hcq
    refine ⟨?_, by decide, ?_, by decide, by decide⟩
    · exact process_of_stream unicodeUpper grow 1 p "A" true [6] (by decide) kp
    · exact process_of_stream unicodeUpper grow 1 q (asciiString [71]) false [4]
        (by decide) kq

/-- C3, what the code does.  On every deck of 54 distinct cards `countCut` returns and the
last card of the deck after it is not the last card of the deck before it: the bottom card
is replaced by a copy of the card that ended up above it. -/
theorem countCut_moves_bottom_card (grow : Nat → Nat → Nat) (p : PontifexCipher)
    (h : validDeck p.deck) :
    ∃ p', countCut grow p = some p' ∧ p'.deck.getLast? ≠ p.deck.getLast? := by
  obtain ⟨bottom, v, hb, hv, h1, h2, h3⟩ := validDeck_bottom p.deck h
  obtain ⟨x, hx, hcut⟩ := countCutV_cut p.deck bottom v hb hv h1 h2
  obtain ⟨p', hp', hd⟩ := countCut_eval grow p _ hcut
  refine ⟨p', hp', ?_⟩
  rw [hd, List.getLast?_concat, List.getLast?_eq_getElem?]
  have hi : v.toNat - 1 < p.deck.length := by omega
  have hj : p.deck.length - 1 < p.deck.length := by omega
  rw [List.getElem?_eq_getElem hi] at hx
  rw [List.getElem?_eq_getElem hj, ← hx]
  intro e
  injection e with e
  have := (List.Nodup.getElem_inj_iff h.2.1).mp e
  omega

/-- Witness of C3: on the ordered deck (bottom card `JOKER_B`) the last card after
`countCut` differs from the last card before it. -/
theorem countCut_moves_bottom_card_witness :
    ∃ p', countCut doublingGrow (NewPontifexCipher orderedDeck []) = some p' ∧
      p'.deck.getLast? ≠ (NewPontifexCipher orderedDeck []).deck.getLast? :=
  countCut_moves_bottom_card doublingGrow (NewPontifexCipher orderedDeck []) (by decide)

set_option maxRecDepth 100000 in
/-- C4, what the code does.  `jokersSecondDeck` and `orderedDeck` are decks of 54 distinct
cards.  Whatever the capacity of the slice, `tripleCut` on `jokersSecondDeck` loses `2C` and
holds `AC` twice; `countCut` on `orderedDeck` loses `JOKER_B` and holds `JOKER_A` twice; one
keystream round from `orderedDeck` leaves a deck without `JOKER_B`. -/
theorem deck_invariant_broken (grow : Nat → Nat → Nat) (spare : List Card) :
    validDeck jokersSecondDeck ∧
    "2C" ∉ (tripleCut grow (NewPontifexCipher jokersSecondDeck spare)).deck ∧
    (tripleCut grow (NewPontifexCipher jokersSecondDeck spare)).deck.count "AC" = 2 ∧
    validDeck orderedDeck ∧
    (∃ p', countCut grow (NewPontifexCipher orderedDeck spare) = some p' ∧
      JOKER_B ∉ p'.deck ∧ p'.deck.count JOKER_A = 2) ∧
    (∃ p' v, keystreamRound grow (NewPontifexCipher orderedDeck spare) = some (p', v) ∧
      JOKER_B ∉ p'.deck ∧ ¬ p'.deck.Nodup) := by
  have hrob : robustCut jokersSecondDeck = true := by decide
  have htc := tripleCut_deck_robust grow (NewPontifexCipher jokersSecondDeck spare) hrob
  have hcc : countCutV orderedDeck = some ((countCutV orderedDeck).getD []) := by decide
  have hrr : robustRound orderedDeck = true := by decide
  have hrv : roundV orderedDeck = some ((roundV orderedDeck).getD ([], 0)) := by decide
  obtain ⟨p1, hp1, hd1⟩ := countCut_eval grow (NewPontifexCipher orderedDeck spare) _ hcc
  obtain ⟨p2, hp2, hd2⟩ :=
    keystreamRound_eval grow (NewPontifexCipher orderedDeck spare) _ _ hrr hrv
  refine ⟨by decide, ?_, ?_, by decide, ⟨p1, hp1, ?_, ?_⟩, ⟨p2, _, hp2, ?_, ?_⟩⟩
  · rw [htc]
    show "2C" ∉ tripleCutV true jokersSecondDeck
    decide
  · rw [htc]
    show (tripleCutV true jokersSecondDeck).count "AC" = 2
    decide
  · rw [hd1]; decide
  · rw [hd1]; decide
  · rw [hd2]; decide
  · rw [hd2]; decide

/-- C5.  For every non-empty deck of card tokens (the 52 ranked cards and the two jokers, in
any number and order), `getOutputCard` returns without panic, and when its value is not the
sentinel `-1` the value lies in `[1, 26]`. -/
theorem getOutputCard_range (p : PontifexCipher) (hne : p.deck ≠ [])
    (htok : ∀ c ∈ p.deck, c ∈ orderedDeck) :
    ∃ v, getOutputCard p = some v ∧ (v ≠ -1 → 1 ≤ v ∧ v ≤ 26) := by
  unfold getOutputCard
  cases hd : p.deck with
  | nil => exact absurd hd hne
  | cons top rest =>
    rw [← hd]
    have htop : p.deck.head? = some top := by rw [hd]; rfl
    rw [htop]
    dsimp only
    obtain ⟨tv, htv, hrange⟩ := cardValue_token top (htok top (by rw [hd]; simp))
    rw [htv]
    dsimp only
    split
    · exact ⟨-1, rfl, fun h => absurd rfl h⟩
    · next hlt =>
      have hidx : tv.toNat < p.deck.length := by omega
      rw [List.getElem?_eq_getElem hidx]
      dsimp only
      obtain ⟨x, hx, hxr⟩ := cardValue_token _ (htok _ (List.getElem_mem hidx))
      rw [hx]
      dsimp only
      split
      · exact ⟨-1, rfl, fun h => absurd rfl h⟩
      · next h53 =>
        rw [if_neg (by omega)]
        exact ⟨x, rfl, fun _ => by omega⟩

/-- Witness of C5: on the ordered deck the top card `AC` has value 1 and the card at index 1
is `2C`. -/
theorem getOutputCard_range_witness :
    ∃ v, getOutputCard (NewPontifexCipher orderedDeck []) = some v ∧
      (v ≠ -1 → 1 ≤ v ∧ v ≤ 26) :=
  getOutputCard_range (NewPontifexCipher orderedDeck []) (by decide) (by decide)

set_option maxRecDepth 100000 in
/-- C6, what the code does.  `stuckDeck` is a deck of 54 distinct cards with both jokers.
From it, whatever the capacity of the slice, the loop of `generateKeystream(2)` collects
one value and then never a second one: no number of iterations ends it. -/
theorem generateKeystream_diverges (grow : Nat → Nat → Nat) (spare : List Card)
    (fuel : Nat) :
    validDeck stuckDeck ∧
    generateKeystream grow fuel 2 (NewPontifexCipher stuckDeck spare) = Run.timeout :=
  ⟨by decide,
    loop_timeout_of_trap grow 2 (orbit 8 stuckDeck 0) stuckDeck_trap fuel
      (NewPontifexCipher stuckDeck spare) [] stuckDeck_start⟩

/-- C7 (letter substitution).  Let `N` be the message uppercased with the spaces removed.
If `N` consists of letters `A`..`Z` and `generateKeystream(len N)` returns `k`, then
`process` returns a string of the length of `N` whose `i`-th byte is `'A' + c - 1` for the
value `c` of the specification (`combinedSpec`), and every byte is a letter `A`..`Z`. -/
theorem process_letter_substitution (unicodeUpper : Char → Char) (grow : Nat → Nat → Nat)
    (fuel : Nat) (p : PontifexCipher) (msg : String) (encrypt : Bool) (k : List Int)
    (hN : ∀ c ∈ normalize unicodeUpper msg, isUpperAZ c)
    (hk : (generateKeystream grow fuel (normalize unicodeUpper msg).length p).map Prod.fst =
      Run.done k) :
    ∃ out, (process unicodeUpper grow fuel p msg encrypt).map Prod.fst = Run.done out ∧
      out.length = (normalize unicodeUpper msg).length ∧
      k.length = (normalize unicodeUpper msg).length ∧
      (∀ (i : Nat) (letter : Char) (kv : Int),
        (normalize unicodeUpper msg)[i]? = some letter → k[i]? = some kv →
        ∃ b, out[i]? = some b ∧ (b : Int) = 65 + combinedSpec encrypt letter kv - 1) ∧
      (∀ b ∈ out, 65 ≤ b ∧ b ≤ 90) := by
  cases hg : generateKeystream grow fuel (normalize unicodeUpper msg).length p with
  | crash => rw [hg] at hk; exact absurd hk (by simp [Run.map])
  | timeout => rw [hg] at hk; exact absurd hk (by simp [Run.map])
  | done r =>
    obtain ⟨k', p'⟩ := r
    rw [hg] at hk
    simp only [Run.map, Run.done.injEq] at hk
    subst hk
    have hlen : k'.length = (normalize unicodeUpper msg).length :=
      loop_length grow fuel _ p [] k' p' (by simp) hg
    have hkb : ∀ v ∈ k', 0 ≤ v ∧ v ≤ 13 := loop_bounds grow fuel _ p [] k' p' (by simp) hg
    rw [process_of_keystream unicodeUpper grow fuel p msg encrypt k' p' hN hg]
    refine ⟨_, rfl, ?_, hlen, ?_, ?_⟩
    · rw [List.length_zipWith]; omega
    · intro i letter kv hl hkv
      refine ⟨cipherByte encrypt letter kv, ?_, ?_⟩
      · rw [List.getElem?_zipWith, hl, hkv]
      · exact (cipherByte_eq_spec encrypt letter kv (hN letter (List.getElem?_mem hl))
          (hkb kv (List.getElem?_mem hkv))).1
    · intro b hb
      obtain ⟨x, kv, hx, hkv, rfl⟩ := mem_zipWith_cipherByte encrypt b _ _ hb
      exact cipherByte_upper encrypt x kv (hN x hx) (hkb kv hkv)

set_option maxRecDepth 100000 in
/-- Witness of C7: `Go On` normalizes to `GOON`; from the ordered deck the keystream is
4, 6, 10, 5 and the ciphertext is `KUYS`. -/
theorem process_letter_substitution_witness :
    ∃ out, (process id doublingGrow 4 (NewPontifexCipher orderedDeck []) "Go On"
        true).map Prod.fst = Run.done out ∧
      out.length = (normalize id "Go On").length ∧
      ([4, 6, 10, 5] : List Int).length = (normalize id "Go On").length ∧
      (∀ (i : Nat) (letter : Char) (kv : Int),
        (normalize id "Go On")[i]? = some letter → ([4, 6, 10, 5] : List Int)[i]? = some kv →
        ∃ b, out[i]? = some b ∧ (b : Int) = 65 + combinedSpec true letter kv - 1) ∧
      (∀ b ∈ out, 65 ≤ b ∧ b ≤ 90) :=
  process_letter_substitution id doublingGrow 4 (NewPontifexCipher orderedDeck []) "Go On"
    true [4, 6, 10, 5] (by decide) (by decide)

set_option maxRecDepth 100000 in
/-- C8, counterexample.  The deck of the 52 ranked cards followed by `JOKER_A` has 53
entries and no `JOKER_B`; the cipher built from it encrypts `A` to `N` and signals
nothing. -/
theorem malformed_deck_accepted :
    deckWithoutJokerB.length = 53 ∧ JOKER_B ∉ deckWithoutJokerB ∧
    (process id doublingGrow 1 (NewPontifexCipher deckWithoutJokerB []) "A" true).map
      Prod.fst = Run.done [78] := by
  decide

set_option maxRecDepth 100000 in
/-- C8, amended.  A deck of 53 entries that lacks `JOKER_B` is not rejected:
`NewPontifexCipher` stores it as it is, `moveJoker(JOKER_B, 2)` and `tripleCut` leave it
unchanged, and `process` proceeds and returns a ciphertext (one letter for the message
`A`), whatever the capacity of the slice. -/
theorem malformed_deck_not_rejected (unicodeUpper : Char → Char) (grow : Nat → Nat → Nat)
    (spare : List Card) (fuel : Nat) :
    deckWithoutJokerB.length = 53 ∧ JOKER_B ∉ deckWithoutJokerB ∧
    (NewPontifexCipher deckWithoutJokerB spare).deck = deckWithoutJokerB ∧
    moveJoker grow (NewPontifexCipher deckWithoutJokerB spare) JOKER_B 2 =
      some (NewPontifexCipher deckWithoutJokerB spare) ∧
    tripleCut grow (NewPontifexCipher deckWithoutJokerB spare) =
      NewPontifexCipher deckWithoutJokerB spare ∧
    ∃ out, (process unicodeUpper grow (1 + fuel) (NewPontifexCipher deckWithoutJokerB spare)
        "A" true).map Prod.fst = Run.done out ∧
      out.length = 1 ∧ ∀ b ∈ out, 65 ≤ b ∧ b ≤ 90 := by
  have hidx : indexOf (NewPontifexCipher deckWithoutJokerB spare) JOKER_B = -1 := by
    show indexOfFrom JOKER_B deckWithoutJokerB 0 = -1
    decide
  obtain ⟨p', hgen⟩ := generateKeystream_eval_stream grow
    (NewPontifexCipher deckWithoutJokerB spare) 1 1 _ deckWithoutJokerB_stream fuel
  have hnorm : normalize unicodeUpper "A" = "A".data := rfl
  have henc := process_of_keystream unicodeUpper grow (1 + fuel)
    (NewPontifexCipher deckWithoutJokerB spare) "A" true _ p'
    (by rw [hnorm]; decide) (by rw [hnorm]; exact hgen)
  rw [hnorm] at henc
  refine ⟨by decide, by decide, rfl, moveJoker_absent grow _ _ _ hidx,
    tripleCut_absent grow _ (Or.inr hidx), List.zipWith (cipherByte true) "A".data [13],
    by rw [henc]; rfl, by decide, by decide⟩

set_option maxRecDepth 100000 in
/-- C9, what the code does.  For every growth policy: two slices with the same cards and
the same capacity give the same outcome of `generateKeystream(n)` (keystream, final deck
order, final capacity), whatever their unused cells hold; and when no round of the run has
a `tripleCut` whose result depends on the capacity (`loopV` returns a result), any two
slices with the same cards give that result.  Two slices with the same cards and different
capacities need not agree: on the valid 54-card deck `jokersApartDeck` the first keystream
value is 6 from a slice of capacity 54 and 4 from a slice of capacity 64. -/
theorem keystream_differs_across_capacities (grow : Nat → Nat → Nat) :
    (∀ (fuel n : Nat) (p q : PontifexCipher), p.deck = q.deck → cap p = cap q →
      (generateKeystream grow fuel n p).map streamView =
        (generateKeystream grow fuel n q).map streamView) ∧
    (∀ (fuel n : Nat) (p q : PontifexCipher) (r : Run (List Int × List Card)),
      p.deck = q.deck → loopV fuel n p.deck [] = some r →
      (generateKeystream grow fuel n p).map (fun x => (x.1, x.2.deck)) = r ∧
      (generateKeystream grow fuel n q).map (fun x => (x.1, x.2.deck)) = r) ∧
    validDeck jokersApartDeck ∧
    ∀ p q : PontifexCipher, p.deck = jokersApartDeck → q.deck = jokersApartDeck →
      cap p = 54 → cap q = 64 →
      (generateKeystream grow 1 1 p).map Prod.fst = Run.done [6] ∧
      (generateKeystream grow 1 1 q).map Prod.fst = Run.done [4] := by
  refine ⟨?_, ?_, by decide, ?_⟩
  · intro fuel n p q hdeck hcap
    exact loop_sameView grow fuel n p q [] ⟨hdeck, hcap⟩
  · intro fuel n p q r hdeck hr
    exact ⟨loopV_sound grow fuel n p [] r hr,
      loopV_sound grow fuel n q [] r (by rw [← hdeck]; exact hr)⟩
  · intro p q hp hq hcp hcq
    exact jokersApartDeck_first grow p q hp hq hcp hcq

/-- C10, what the code does.  For a deck of length `n` whose bottom card has value `v`:
if `v ≥ n` the deck is unchanged; if `1 ≤ v < n` the deck after `countCut` is the cards at
indices `v .. n-2`, then the first `v` cards, then a second copy of the card at index
`v - 1` (not the original bottom card). -/
theorem countCut_reassembly (grow : Nat → Nat → Nat) (p : PontifexCipher) (bottom : Card)
    (v : Int) (hb : p.deck.getLast? = some bottom) (hv : cardValue bottom = some v) :
    (v ≥ p.deck.length → countCut grow p = some p) ∧
    (1 ≤ v → v < p.deck.length →
      ∃ p' x, countCut grow p = some p' ∧ p.deck[v.toNat - 1]? = some x ∧
        p'.deck = (p.deck.drop v.toNat).take (p.deck.length - 1 - v.toNat) ++
          p.deck.take v.toNat ++ [x]) := by
  constructor
  · intro hge
    unfold countCut
    rw [hb]
    dsimp only
    rw [hv]
    dsimp only
    rw [if_pos hge]
  · intro h1 h2
    obtain ⟨x, hx, hcut⟩ := countCutV_cut p.deck bottom v hb hv h1 h2
    obtain ⟨p', hp', hd⟩ := countCut_eval grow p _ hcut
    exact ⟨p', x, hp', hx, hd⟩

/-- Witness of C10: on the reversed ordered deck the bottom card `AC` has value 1;
`countCut` leaves the cards at indices 1..52, then the top card `JOKER_B`, then `JOKER_B`
again, which is not the reassembly that ends with the original bottom card `AC`. -/
theorem countCut_reassembly_witness :
    ∃ p', countCut doublingGrow (NewPontifexCipher reversedDeck []) = some p' ∧
      p'.deck = (reversedDeck.drop 1).take 52 ++ reversedDeck.take 1 ++ ["JOKER_B"] ∧
      p'.deck ≠ (reversedDeck.drop 1).take 52 ++ reversedDeck.take 1 ++ ["AC"] := by
  obtain ⟨p', x, h1, h2, h3⟩ :=
    (countCut_reassembly doublingGrow (NewPontifexCipher reversedDeck []) "AC" 1
      (by decide) (by decide)).2 (by decide) (by decide)
  have hx : (NewPontifexCipher reversedDeck []).deck[(1 : Int).toNat - 1]? =
      some "JOKER_B" := by decide
  rw [hx] at h2
  injection h2 with h2
  rw [← h2] at h3
  refine ⟨p', h1, h3, ?_⟩
  rw [h3]
  decide

/-! ## Presence of a card and `indexOf` -/

theorem indexOfFrom_eq_neg_one (card : Card) :
    ∀ (l : List Card) (i : Nat), indexOfFrom card l i = -1 ↔ card ∉ l := by
  intro l
  induction l with
  | nil => intro i; simp [indexOfFrom]
  | cons c cs ih =>
    intro i
    unfold indexOfFrom
    split
    · next hc =>
      constructor
      · intro h; omega
      · intro h; exact absurd (by rw [hc]; exact List.mem_cons_self _ _) h
    · next hc =>
      rw [ih (i + 1), List.mem_cons, not_or]
      constructor
      · intro h; exact ⟨fun e => hc e.symm, h⟩
      · intro h; exact h.2

theorem indexOf_eq_neg_one (p : PontifexCipher) (card : Card) :
    indexOf p card = -1 ↔ card ∉ p.deck :=
  indexOfFrom_eq_neg_one card p.deck 0

theorem indexOfFrom_first (card : Card) :
    ∀ (l : List Card) (i : Nat) (j : Nat), (j : Int) < indexOfFrom card l i - i →
      l[j]? ≠ some card := by
  intro l
  induction l with
  | nil => intro i j _; simp
  | cons c cs ih =>
    intro i j h
    unfold indexOfFrom at h
    split at h
    · omega
    · next hc =>
      cases j with
      | zero => simp only [List.getElem?_cons_zero, ne_eq, Option.some.injEq]; exact hc
      | succ j =>
        rw [List.getElem?_cons_succ]
        apply ih (i + 1) j
        push_cast at h ⊢
        omega

/-! ## Where `moveJoker` puts the joker -/

theorem removeV_eq_eraseIdx (d : List Card) (i : Nat) (h : i < d.length) :
    removeV d i = d.eraseIdx i := by
  unfold removeV
  rw [if_neg (by omega), List.eraseIdx_eq_take_drop_succ]
  rfl

theorem insertV_at (r : List Card) (pos : Nat) (card : Card) (h : pos ≤ r.length) :
    (insertV r pos card).length = r.length + 1 ∧
    (insertV r pos card)[pos]? = some card ∧
    (insertV r pos card).eraseIdx pos = r := by
  have hlt : (r.take pos).length = pos := by rw [List.length_take]; omega
  unfold insertV
  rw [if_neg (by omega)]
  simp only [Int.toNat_ofNat]
  refine ⟨?_, ?_, ?_⟩
  · simp only [List.length_append, List.length_cons, List.length_take, List.length_drop]
    omega
  · rw [List.getElem?_append_right (by omega), hlt, Nat.sub_self, List.getElem?_cons_zero]
  · rw [List.eraseIdx_append_of_length_le (by omega), hlt, Nat.sub_self,
      List.eraseIdx_cons_zero, List.take_append_drop]

theorem moveJokerV_placement (d : List Card) (joker : Card) (steps : Int) (i : Nat)
    (hn : 2 ≤ d.length) (hi : indexOfFrom joker d 0 = i) (hs : 0 ≤ steps) :
    ∃ d', moveJokerV d joker steps = some d' ∧ d'.length = d.length ∧
      d'[(((i : Int) + steps) % ((d.length : Int) - 1)).toNat]? = some joker ∧
      d'.eraseIdx (((i : Int) + steps) % ((d.length : Int) - 1)).toNat = d.eraseIdx i := by
  have hr := indexOfFrom_range joker d 0
  have hilt : i < d.length := by omega
  have hrem : removeV d (i : Int) = d.eraseIdx i := removeV_eq_eraseIdx d i hilt
  have hlen : (d.eraseIdx i).length = d.length - 1 := by
    rw [List.length_eraseIdx, if_pos hilt]
  have hcast : (((d.length - 1 : Nat) : Int)) = (d.length : Int) - 1 := by omega
  have hm0 : 0 ≤ ((i : Int) + steps) % ((d.length : Int) - 1) :=
    Int.emod_nonneg _ (by omega)
  have hm1 : ((i : Int) + steps) % ((d.length : Int) - 1) < (d.length : Int) - 1 :=
    Int.emod_lt_of_pos _ (by omega)
  unfold moveJokerV
  dsimp only
  rw [hi, if_neg (by omega), hrem, hlen, if_neg (by omega), hcast,
    Int.tmod_eq_emod (by omega) (by omega)]
  obtain ⟨h1, h2, h3⟩ := insertV_at (d.eraseIdx i)
    ((((i : Int) + steps) % ((d.length : Int) - 1)).toNat) joker (by rw [hlen]; omega)
  rw [Int.toNat_of_nonneg hm0] at h1 h2 h3
  exact ⟨_, rfl, by rw [h1, hlen]; omega, h2, h3⟩

/-! ## The three segments of `tripleCut` -/

theorem jokerLo_lt_hi (d : List Card) (hA : JOKER_A ∈ d) (hB : JOKER_B ∈ d) :
    jokerLo d < jokerHi d := by
  have hA1 : indexOfFrom JOKER_A d 0 ≠ -1 := fun e => (indexOfFrom_eq_neg_one _ d 0).mp e hA
  have hB1 : indexOfFrom JOKER_B d 0 ≠ -1 := fun e => (indexOfFrom_eq_neg_one _ d 0).mp e hB
  have hrA := indexOfFrom_range JOKER_A d 0
  have hrB := indexOfFrom_range JOKER_B d 0
  have hgA := indexOfFrom_getElem JOKER_A d 0 hA1
  have hgB := indexOfFrom_getElem JOKER_B d 0 hB1
  have hne : indexOfFrom JOKER_A d 0 ≠ indexOfFrom JOKER_B d 0 := by
    intro e
    rw [e, hgB] at hgA
    exact absurd hgA (by decide)
  unfold jokerLo jokerHi
  split <;> omega

theorem tripleCutV_present (inPlace : Bool) (d : List Card) (hA : JOKER_A ∈ d)
    (hB : JOKER_B ∈ d) :
    tripleCutV inPlace d =
      (if inPlace then
          (d.take (jokerLo d) ++ (d.drop (jokerHi d + 1)).drop (jokerLo d)).take
            (d.drop (jokerHi d + 1)).length
        else d.drop (jokerHi d + 1)) ++
        (d.drop (jokerLo d)).take (jokerHi d + 1 - jokerLo d) ++ d.take (jokerLo d) := by
  have hA1 : indexOfFrom JOKER_A d 0 ≠ -1 := fun e => (indexOfFrom_eq_neg_one _ d 0).mp e hA
  have hB1 : indexOfFrom JOKER_B d 0 ≠ -1 := fun e => (indexOfFrom_eq_neg_one _ d 0).mp e hB
  unfold tripleCutV
  rw [if_neg (by intro h; rcases h with h | h; exact hA1 h; exact hB1 h)]

theorem length_tripleCutV (inPlace : Bool) (d : List Card) :
    (tripleCutV inPlace d).length = d.length := by
  unfold tripleCutV
  split
  · rfl
  · next h =>
    have hB : indexOfFrom JOKER_B d 0 ≠ -1 := fun e => h (Or.inr e)
    have hlo := jokerLo_le_hi d
    have hhi := jokerHi_lt d hB
    cases inPlace
    · simp only [Bool.false_eq_true, if_false, List.length_append, List.length_take,
        List.length_drop]
      omega
    · simp only [if_true, List.length_append, List.length_take, List.length_drop]
      omega

theorem tripleCutV_clean (d : List Card)
    (h : jokerLo d = 0 ∨ jokerHi d + 1 = d.length) :
    tripleCutV true d = tripleCutV false d := by
  unfold tripleCutV
  split
  · rfl
  · dsimp only
    simp only [if_true, Bool.false_eq_true, if_false]
    congr 2
    rcases h with h | h
    · rw [h, List.take_zero, List.nil_append, List.drop_zero, List.take_of_length_le (le_refl _)]
    · rw [h, List.drop_length]
      simp

/-! ## The keystream loop is a stream -/

theorem loop_shift (grow : Nat → Nat → Nat) (fuel n : Nat) (pre : List Int) :
    ∀ (p : PontifexCipher) (acc : List Int),
      generateKeystreamLoop grow fuel (pre.length + n) p (pre ++ acc) =
        (generateKeystreamLoop grow fuel n p acc).map (fun r => (pre ++ r.1, r.2)) := by
  induction fuel with
  | zero =>
    intro p acc
    unfold generateKeystreamLoop
    simp only [List.length_append, Nat.add_lt_add_iff_left]
    split <;> rfl
  | succ fuel ih =>
    intro p acc
    unfold generateKeystreamLoop
    simp only [List.length_append, Nat.add_lt_add_iff_left]
    split
    · cases keystreamRound grow p with
      | none => rfl
      | some r =>
        obtain ⟨p', v⟩ := r
        dsimp only
        split
        · rw [List.append_assoc]; exact ih p' _
        · exact ih p' _
    · rfl

theorem loop_split (grow : Nat → Nat → Nat) (m k fuel : Nat) :
    ∀ (p : PontifexCipher) (acc s : List Int) (pf : PontifexCipher), acc.length ≤ m →
      generateKeystreamLoop grow fuel (m + k) p acc = Run.done (s, pf) →
      ∃ s1 p1, generateKeystreamLoop grow fuel m p acc = Run.done (s1, p1) ∧
        generateKeystreamLoop grow fuel (m + k) p1 s1 = Run.done (s, pf) := by
  induction fuel with
  | zero =>
    intro p acc s pf hle h
    have h' := h
    unfold generateKeystreamLoop at h
    split at h
    · exact absurd h (by simp)
    · next hlt =>
      refine ⟨acc, p, ?_, h'⟩
      unfold generateKeystreamLoop
      rw [if_neg (by omega)]
  | succ fuel ih =>
    intro p acc s pf hle h
    by_cases hm : acc.length < m
    · unfold generateKeystreamLoop at h ⊢
      rw [if_pos (by omega)] at h
      rw [if_pos hm]
      cases hr : keystreamRound grow p with
      | none => rw [hr] at h; exact absurd h (by simp)
      | some r =>
        obtain ⟨p', v⟩ := r
        rw [hr] at h
        dsimp only at h ⊢
        have hle' : (if v ≠ -1 then acc ++ [v] else acc).length ≤ m := by
          split
          · simp only [List.length_append, List.length_singleton]; omega
          · exact hle
        obtain ⟨s1, p1, h1, h2⟩ := ih p' _ s pf hle' h
        exact ⟨s1, p1, h1, loop_fuel_mono grow fuel (m + k) p1 s1 (s, pf) 1 h2⟩
    · refine ⟨acc, p, ?_, h⟩
      unfold generateKeystreamLoop
      rw [if_neg hm]

theorem generateKeystream_append (grow : Nat → Nat → Nat) (fuel m k : Nat)
    (p pf : PontifexCipher) (s : List Int)
    (h : generateKeystream grow fuel (m + k) p = Run.done (s, pf)) :
    ∃ s1 p1 s2, generateKeystream grow fuel m p = Run.done (s1, p1) ∧
      generateKeystream grow fuel k p1 = Run.done (s2, pf) ∧ s = s1 ++ s2 := by
  obtain ⟨s1, p1, h1, h2⟩ := loop_split grow m k fuel p [] s pf (by simp) h
  have hlen : s1.length = m := loop_length grow fuel m p [] s1 p1 (by simp) h1
  have hshift := loop_shift grow fuel k s1 p1 []
  rw [List.append_nil, hlen, h2] at hshift
  cases hk : generateKeystreamLoop grow fuel k p1 [] with
  | crash => rw [hk] at hshift; exact absurd hshift (by simp [Run.map])
  | timeout => rw [hk] at hshift; exact absurd hshift (by simp [Run.map])
  | done r =>
    obtain ⟨s2, q⟩ := r
    rw [hk] at hshift
    simp only [Run.map, Run.done.injEq, Prod.mk.injEq] at hshift
    exact ⟨s1, p1, s2, h1, by rw [hshift.2]; exact hk, hshift.1⟩

/-! ## The unguarded operations of `main.go` on decks that hold the jokers -/

theorem length_le_cap (p : PontifexCipher) : p.deck.length ≤ cap p := by
  unfold cap; omega

theorem sliceOk_true (lo hi : Int) (bound : Nat) (h0 : 0 ≤ lo) (h1 : lo ≤ hi)
    (h2 : hi ≤ bound) : sliceOk lo hi bound = true := by
  unfold sliceOk
  exact decide_eq_true ⟨h0, h1, h2⟩

theorem main_remove_eq (grow : Nat → Nat → Nat) (p : PontifexCipher) (idx : Int)
    (h0 : 0 ≤ idx) (h1 : idx < p.deck.length) :
    Main.remove grow p idx = some (remove grow p idx) := by
  have hc := length_le_cap p
  have hg : ¬ (idx < 0 ∨ idx ≥ p.deck.length) := by omega
  unfold Main.remove remove
  rw [sliceOk_true 0 idx (cap p) (le_refl _) h0 (by omega),
    sliceOk_true (idx + 1) p.deck.length (cap p) (by omega) (by omega) (by omega), if_neg hg]
  rfl

theorem main_insert_eq (grow : Nat → Nat → Nat) (p : PontifexCipher) (idx : Int)
    (card : Card) (h0 : 0 ≤ idx) (h1 : idx ≤ p.deck.length) :
    Main.insert grow p idx card = some (insert grow p idx card) := by
  have hc := length_le_cap p
  have hg : ¬ (idx < 0 ∨ idx > p.deck.length) := by omega
  unfold Main.insert insert
  rw [sliceOk_true 0 idx (cap p) (le_refl _) h0 (by omega),
    sliceOk_true idx p.deck.length (cap p) h0 h1 (by omega), if_neg hg]
  rfl

theorem main_moveJoker_eq (grow : Nat → Nat → Nat) (p : PontifexCipher) (joker : Card)
    (steps : Int) (hj : joker ∈ p.deck) (hs : 0 ≤ steps) :
    Main.moveJoker grow p joker steps = moveJoker grow p joker steps := by
  have hne : indexOf p joker ≠ -1 := fun e => (indexOf_eq_neg_one p joker).mp e hj
  have hr := indexOf_range p joker
  unfold Main.moveJoker moveJoker
  dsimp only
  rw [main_remove_eq grow p _ (by omega) (by omega), if_neg hne]
  dsimp only
  split
  · rfl
  · next hlen =>
    have hpos : (0 : Int) < ((remove grow p (indexOf p joker)).deck.length : Int) := by omega
    exact main_insert_eq grow _ _ joker (Int.tmod_nonneg _ (by omega))
      (le_of_lt (Int.tmod_lt_of_pos _ hpos))

theorem main_tripleCut_eq (grow : Nat → Nat → Nat) (p : PontifexCipher)
    (hA : JOKER_A ∈ p.deck) (hB : JOKER_B ∈ p.deck) :
    Main.tripleCut grow p = some (tripleCut grow p) := by
  have hA1 : indexOf p JOKER_A ≠ -1 := fun e => (indexOf_eq_neg_one p _).mp e hA
  have hB1 : indexOf p JOKER_B ≠ -1 := fun e => (indexOf_eq_neg_one p _).mp e hB
  have hrA := indexOf_range p JOKER_A
  have hrB := indexOf_range p JOKER_B
  have hc := length_le_cap p
  have hg : ¬ (indexOf p JOKER_A = -1 ∨ indexOf p JOKER_B = -1) := by
    intro h; rcases h with h | h
    · exact hA1 h
    · exact hB1 h
  unfold Main.tripleCut tripleCut
  dsimp only
  rw [if_neg hg]
  rw [sliceOk_true 0 _ (cap p) (le_refl _) (by split <;> omega) (by split <;> omega),
    sliceOk_true _ _ (cap p) (by split <;> omega) (by split <;> omega)
      (by split <;> omega),
    sliceOk_true _ p.deck.length (cap p) (by split <;> omega) (by split <;> omega)
      (by omega)]
  rfl

theorem moveJoker_mem (grow : Nat → Nat → Nat) (p p' : PontifexCipher) (joker : Card)
    (steps : Int) (hs : 0 ≤ steps) (h : moveJoker grow p joker steps = some p')
    (card : Card) : card ∈ p'.deck ↔ card ∈ p.deck :=
  (moveJoker_perm grow p p' joker steps hs h).mem_iff

theorem main_keystreamRound_eq (grow : Nat → Nat → Nat) (p : PontifexCipher)
    (hA : JOKER_A ∈ p.deck) (hB : JOKER_B ∈ p.deck) :
    Main.keystreamRound grow p = keystreamRound grow p := by
  unfold Main.keystreamRound keystreamRound
  rw [main_moveJoker_eq grow p JOKER_A 1 hA (by decide)]
  cases h1 : moveJoker grow p JOKER_A 1 with
  | none => rfl
  | some p1 =>
    dsimp only
    have hA1 : JOKER_A ∈ p1.deck := (moveJoker_mem grow p p1 _ 1 (by decide) h1 _).mpr hA
    have hB1 : JOKER_B ∈ p1.deck := (moveJoker_mem grow p p1 _ 1 (by decide) h1 _).mpr hB
    rw [main_moveJoker_eq grow p1 JOKER_B 2 hB1 (by decide)]
    cases h2 : moveJoker grow p1 JOKER_B 2 with
    | none => rfl
    | some p2 =>
      dsimp only
      have hA2 : JOKER_A ∈ p2.deck := (moveJoker_mem grow p1 p2 _ 2 (by decide) h2 _).mpr hA1
      have hB2 : JOKER_B ∈ p2.deck := (moveJoker_mem grow p1 p2 _ 2 (by decide) h2 _).mpr hB1
      rw [main_tripleCut_eq grow p2 hA2 hB2]

/-! ## Lemmas for the claims on the single operations -/

theorem cardValue_joker (c : Card) (h : c = JOKER_A ∨ c = JOKER_B) : cardValue c = some 53 := by
  unfold cardValue
  exact if_pos h

theorem cardValue_ranked (c : Card) (h : ¬ (c = JOKER_A ∨ c = JOKER_B)) (x : Int)
    (hx : cardValue c = some x) : 0 ≤ x ∧ x ≤ 13 := by
  unfold cardValue at hx
  have e := hx
  rw [if_neg (show ¬ (c = "JOKER_A" ∨ c = "JOKER_B") from h)] at hx
  clear e
  split at hx
  · exact absurd hx (by simp)
  · split at hx
    · injection hx with hx; rw [← hx]; exact rankOrder_bounds _
    · injection hx with hx; omega

theorem map_deck_eq_none {o : Option PontifexCipher}
    (h : o.map PontifexCipher.deck = none) : o = none := by
  cases o with
  | none => rfl
  | some _ => exact absurd h (by simp)

theorem twoCuts_eval (grow : Nat → Nat → Nat) (p : PontifexCipher)
    (h1 : robustCut p.deck = true) (h2 : robustCut (tripleCutV true p.deck) = true) :
    (tripleCut grow (tripleCut grow p)).deck = tripleCutV true (tripleCutV true p.deck) := by
  have e1 := tripleCut_deck_robust grow p h1
  have e2 := tripleCut_deck_robust grow (tripleCut grow p) (by rw [e1]; exact h2)
  rw [e2, e1]

/-! ## `tripleCut` twice, on the visible cards -/

theorem indexOfFrom_append (card : Card) :
    ∀ (pre post : List Card) (i : Nat), card ∉ pre →
      indexOfFrom card (pre ++ card :: post) i = ((i + pre.length : Nat) : Int) := by
  intro pre
  induction pre with
  | nil => intro post i _; simp [indexOfFrom]
  | cons c cs ih =>
    intro post i h
    have hc : c ≠ card := fun e => h (by rw [e]; exact List.mem_cons_self _ _)
    have hcs : card ∉ cs := fun e => h (List.mem_cons_of_mem _ e)
    show indexOfFrom card (c :: (cs ++ card :: post)) i = _
    unfold indexOfFrom
    rw [if_neg hc, ih post (i + 1) hcs]
    simp only [List.length_cons]
    congr 1
    omega

/-- The segments of the cut when the deck is `s ++ x :: u ++ y :: w`, with `x`, `y` the two
jokers in either order and these their first occurrences. -/
theorem tripleCutV_segments (s u w : List Card) (x y : Card)
    (hxy : (x = JOKER_A ∧ y = JOKER_B) ∨ (x = JOKER_B ∧ y = JOKER_A))
    (hxs : x ∉ s) (hys : y ∉ s) (hyu : y ∉ u) :
    jokerLo (s ++ x :: (u ++ y :: w)) = s.length ∧
    jokerHi (s ++ x :: (u ++ y :: w)) = s.length + 1 + u.length ∧
    tripleCutV false (s ++ x :: (u ++ y :: w)) = w ++ x :: (u ++ y :: s) := by
  have hne : y ≠ x := by
    rcases hxy with ⟨h1, h2⟩ | ⟨h1, h2⟩ <;> rw [h1, h2] <;> decide
  have ix : indexOfFrom x (s ++ x :: (u ++ y :: w)) 0 = (s.length : Int) := by
    rw [indexOfFrom_append x s _ 0 hxs]; simp
  have iy : indexOfFrom y (s ++ x :: (u ++ y :: w)) 0 = ((s.length + 1 + u.length : Nat) : Int) := by
    have e : s ++ x :: (u ++ y :: w) = (s ++ x :: u) ++ y :: w := by simp
    have hmem : y ∉ s ++ x :: u := by
      intro h
      rcases List.mem_append.mp h with h | h
      · exact hys h
      · rcases List.mem_cons.mp h with h | h
        · exact hne h
        · exact hyu h
    rw [e, indexOfFrom_append y (s ++ x :: u) w 0 hmem]
    simp only [List.length_append, List.length_cons]
    congr 1
    omega
  have hlo : jokerLo (s ++ x :: (u ++ y :: w)) = s.length := by
    unfold jokerLo
    rcases hxy with ⟨h1, h2⟩ | ⟨h1, h2⟩
    · rw [← h1, ← h2, ix, iy]; split <;> omega
    · rw [← h1, ← h2, ix, iy]; split <;> omega
  have hhi : jokerHi (s ++ x :: (u ++ y :: w)) = s.length + 1 + u.length := by
    unfold jokerHi
    rcases hxy with ⟨h1, h2⟩ | ⟨h1, h2⟩
    · rw [← h1, ← h2, ix, iy]; split <;> omega
    · rw [← h1, ← h2, ix, iy]; split <;> omega
  refine ⟨hlo, hhi, ?_⟩
  have hpres : ¬ (indexOfFrom JOKER_A (s ++ x :: (u ++ y :: w)) 0 = -1 ∨
      indexOfFrom JOKER_B (s ++ x :: (u ++ y :: w)) 0 = -1) := by
    rcases hxy with ⟨h1, h2⟩ | ⟨h1, h2⟩
    · rw [← h1, ← h2, ix, iy]; omega
    · rw [← h1, ← h2, ix, iy]; omega
  unfold tripleCutV
  rw [if_neg hpres]
  dsimp only
  rw [hlo, hhi, if_neg (by simp)]
  have e1 : List.take s.length (s ++ x :: (u ++ y :: w)) = s := List.take_left' rfl
  have e2 : List.drop s.length (s ++ x :: (u ++ y :: w)) = x :: (u ++ y :: w) :=
    List.drop_left' rfl
  have e3 : List.take (s.length + 1 + u.length + 1 - s.length) (x :: (u ++ y :: w)) =
      x :: (u ++ [y]) := by
    have e : x :: (u ++ y :: w) = (x :: (u ++ [y])) ++ w := by simp
    have hl : (x :: (u ++ [y])).length = s.length + 1 + u.length + 1 - s.length := by
      simp only [List.length_cons, List.length_append, List.length_nil]
      omega
    rw [e]
    exact List.take_left' hl
  have e4 : List.drop (s.length + 1 + u.length + 1) (s ++ x :: (u ++ y :: w)) = w := by
    have e : s ++ x :: (u ++ y :: w) = (s ++ x :: (u ++ [y])) ++ w := by simp
    have hl : (s ++ x :: (u ++ [y])).length = s.length + 1 + u.length + 1 := by
      simp only [List.length_cons, List.length_append, List.length_nil]
      omega
    rw [e]
    exact List.drop_left' hl
  rw [e1, e2, e3, e4]
  simp

theorem not_mem_of_count_append_cons (c : Card) (s t : List Card)
    (h : (s ++ c :: t).count c = 1) : c ∉ s ∧ c ∉ t := by
  rw [List.count_append, List.count_cons_self] at h
  constructor
  · intro hm
    have := List.count_pos_iff.mpr hm
    omega
  · intro hm
    have := List.count_pos_iff.mpr hm
    omega

/-- On the visible cards, without overwriting, the cut is an involution on every deck that
holds each joker exactly once; the jokers keep their indices' roles: the deck after the
first cut has its lower joker at the length of the old bottom segment. -/
theorem tripleCutV_twice (d : List Card) (hA : d.count JOKER_A = 1)
    (hB : d.count JOKER_B = 1) :
    tripleCutV false (tripleCutV false d) = d ∧
    jokerLo (tripleCutV false d) = d.length - (jokerHi d + 1) ∧
    jokerHi (tripleCutV false d) + 1 = d.length - jokerLo d := by
  have key : ∀ (x y : Card), (x = JOKER_A ∧ y = JOKER_B) ∨ (x = JOKER_B ∧ y = JOKER_A) →
      ∀ (s u w : List Card), d = s ++ x :: (u ++ y :: w) → d.count x = 1 → d.count y = 1 →
      tripleCutV false (tripleCutV false d) = d ∧
      jokerLo (tripleCutV false d) = d.length - (jokerHi d + 1) ∧
      jokerHi (tripleCutV false d) + 1 = d.length - jokerLo d := by
    intro x y hxy s u w hd hx hy
    have hne : y ≠ x := by
      rcases hxy with ⟨h1, h2⟩ | ⟨h1, h2⟩ <;> rw [h1, h2] <;> decide
    have hx1 := not_mem_of_count_append_cons x s (u ++ y :: w) (hd ▸ hx)
    have hy1 := not_mem_of_count_append_cons y (s ++ x :: u) w
      (by rw [List.append_assoc, List.cons_append]; exact hd ▸ hy)
    have hys : y ∉ s := fun h => hy1.1 (List.mem_append_left _ h)
    have hyu : y ∉ u := fun h =>
      hy1.1 (List.mem_append_right _ (List.mem_cons_of_mem _ h))
    have hxw : x ∉ w := fun h =>
      hx1.2 (List.mem_append_right _ (List.mem_cons_of_mem _ h))
    obtain ⟨hlo, hhi, hcut⟩ := tripleCutV_segments s u w x y hxy hx1.1 hys hyu
    obtain ⟨hlo2, hhi2, hcut2⟩ := tripleCutV_segments w u s x y hxy hxw hy1.2 hyu
    rw [hd, hcut, hcut2, hlo2, hhi2, hlo, hhi]
    refine ⟨rfl, ?_, ?_⟩
    · simp only [List.length_append, List.length_cons]; omega
    · simp only [List.length_append, List.length_cons]; omega
  have hAm : JOKER_A ∈ d := List.count_pos_iff.mp (by omega)
  have hBm : JOKER_B ∈ d := List.count_pos_iff.mp (by omega)
  obtain ⟨s, t, hd⟩ := List.append_of_mem hAm
  have hBst : JOKER_B ∈ s ++ JOKER_A :: t := hd ▸ hBm
  rcases List.mem_append.mp hBst with hBs | hBt
  · obtain ⟨s1, s2, hs⟩ := List.append_of_mem hBs
    exact key JOKER_B JOKER_A (Or.inr ⟨rfl, rfl⟩) s1 s2 t
      (by rw [hd, hs]; simp) hB hA
  · rcases List.mem_cons.mp hBt with hBe | hBt
    · exact absurd hBe (by decide)
    · obtain ⟨t1, t2, ht⟩ := List.append_of_mem hBt
      exact key JOKER_A JOKER_B (Or.inl ⟨rfl, rfl⟩) s t1 t2
        (by rw [hd, ht]) hA hB

/-- Whatever the capacity, two cuts restore a deck that holds each joker exactly once and
has a joker as its top or as its bottom card. -/
theorem twoCuts_clean (grow : Nat → Nat → Nat) (p : PontifexCipher)
    (hA : p.deck.count JOKER_A = 1) (hB : p.deck.count JOKER_B = 1)
    (h : jokerLo p.deck = 0 ∨ jokerHi p.deck + 1 = p.deck.length) :
    (tripleCut grow (tripleCut grow p)).deck = p.deck := by
  have flag : ∀ (b : Bool) (d : List Card),
      jokerLo d = 0 ∨ jokerHi d + 1 = d.length → tripleCutV b d = tripleCutV false d := by
    intro b d hd
    cases b
    · rfl
    · exact tripleCutV_clean d hd
  obtain ⟨h2, hlo, hhi⟩ := tripleCutV_twice p.deck hA hB
  have e1 : (tripleCut grow p).deck = tripleCutV false p.deck := by
    rw [tripleCut_deck, flag _ _ h]
  have hlen : (tripleCutV false p.deck).length = p.deck.length := length_tripleCutV _ _
  have hAm : JOKER_A ∈ p.deck := List.count_pos_iff.mp (by omega)
  have hBm : JOKER_B ∈ p.deck := List.count_pos_iff.mp (by omega)
  have hB1 : indexOfFrom JOKER_B p.deck 0 ≠ -1 :=
    fun e => (indexOfFrom_eq_neg_one _ p.deck 0).mp e hBm
  have hlt := jokerHi_lt p.deck hB1
  have hle := jokerLo_le_hi p.deck
  rw [tripleCut_deck, e1, flag _ _ (by rw [hlo, hhi, hlen]; omega), h2]

/-! ## When the deck primitives complete -/

theorem cardValue_nonempty (c : Card) (h : c ≠ "") : ∃ v, cardValue c = some v := by
  unfold cardValue
  split
  · exact ⟨_, rfl⟩
  · cases hl : c.data.getLast? with
    | none =>
      exfalso
      apply h
      have hd : c.data = [] := List.getLast?_eq_none_iff.mp hl
      cases c
      simp only at hd
      rw [hd]
    | some ch =>
      dsimp only
      split
      · exact ⟨_, rfl⟩
      · exact ⟨_, rfl⟩

theorem option_isSome_of_map {o : Option PontifexCipher} {d : List Card}
    (h : o.map PontifexCipher.deck = some d) : ∃ q, o = some q ∧ q.deck = d := by
  cases o with
  | none => exact absurd h (by simp)
  | some q => exact ⟨q, rfl, by simpa using h⟩

/-- On a deck of at least two cards `moveJoker` completes, for every card and every step
count. -/
theorem moveJoker_completes (grow : Nat → Nat → Nat) (p : PontifexCipher) (joker : Card)
    (steps : Int) (hlen : 2 ≤ p.deck.length) :
    ∃ q, moveJoker grow p joker steps = some q := by
  unfold moveJoker
  dsimp only
  split
  · exact ⟨_, rfl⟩
  · next hidx =>
    have hr := indexOf_range p joker
    have hi : (indexOf p joker).toNat < p.deck.length := by omega
    have hl : (remove grow p (indexOf p joker)).deck.length ≠ 0 := by
      rw [remove_deck]
      have e : indexOf p joker = ((indexOf p joker).toNat : Int) := by omega
      rw [e, removeV_eq_eraseIdx p.deck _ hi, List.length_eraseIdx]
      split <;> omega
    rw [if_neg hl]
    exact ⟨_, rfl⟩

/-- On a deck of at least two cards, none of them the empty string, the four primitives
complete. -/
theorem primitives_complete (grow : Nat → Nat → Nat) (p : PontifexCipher)
    (hlen : 2 ≤ p.deck.length) (htok : ∀ c ∈ p.deck, c ≠ "") :
    (∀ (joker : Card) (steps : Int), ∃ q, moveJoker grow p joker steps = some q) ∧
    (∃ q, countCut grow p = some q) ∧ (∃ v, getOutputCard p = some v) := by
  refine ⟨fun joker steps => moveJoker_completes grow p joker steps hlen, ?_, ?_⟩
  · have hd := countCut_deck grow p
    have : ∃ d, countCutV p.deck = some d := by
      unfold countCutV
      have hne : p.deck ≠ [] := by
        intro e; rw [e] at hlen; simp at hlen
      have hlast : p.deck.getLast? = some (p.deck.getLast hne) := List.getLast?_eq_getLast _ hne
      rw [hlast]
      dsimp only
      obtain ⟨v, hv⟩ := cardValue_nonempty _ (htok _ (List.getLast_mem hne))
      rw [hv]
      dsimp only
      have hv0 : 0 ≤ v := by
        rcases cardValue_bounds _ v hv with h | h <;> omega
      split
      · exact ⟨_, rfl⟩
      · next hlt =>
        cases hl : (List.take (p.deck.length - 1 - v.toNat) (List.drop v.toNat p.deck) ++
            List.take v.toNat p.deck).getLast? with
        | none =>
          exfalso
          have := List.getLast?_eq_none_iff.mp hl
          have hz := congrArg List.length this
          simp only [List.length_append, List.length_take, List.length_drop,
            List.length_nil] at hz
          omega
        | some last => exact ⟨_, rfl⟩
    obtain ⟨d, hd2⟩ := this
    rw [hd2] at hd
    obtain ⟨q, hq, _⟩ := option_isSome_of_map hd
    exact ⟨q, hq⟩
  · unfold getOutputCard
    have hne : p.deck ≠ [] := by
      intro e; rw [e] at hlen; simp at hlen
    cases hdk : p.deck with
    | nil => exact absurd hdk hne
    | cons top rest =>
      have htop : top ≠ "" := htok top (by rw [hdk]; exact List.mem_cons_self _ _)
      obtain ⟨v, hv⟩ := cardValue_nonempty top htop
      have hv0 : 0 ≤ v := by
        rcases cardValue_bounds _ v hv with h | h <;> omega
      simp only [List.head?_cons]
      rw [hv]
      dsimp only
      split
      · exact ⟨_, rfl⟩
      · next hlt =>
        have hi : v.toNat < (top :: rest).length := by omega
        rw [List.getElem?_eq_getElem hi]
        dsimp only
        obtain ⟨w, hw⟩ := cardValue_nonempty (top :: rest)[v.toNat]
          (htok _ (by rw [hdk]; exact List.getElem_mem _))
        rw [hw]
        dsimp only
        split
        · exact ⟨_, rfl⟩
        · split
          · exact ⟨_, rfl⟩
          · exact ⟨_, rfl⟩

/-- With a negative step count the remainder of Go's `%` is negative, `insert` returns at
its guard and the joker is not put back. -/
theorem moveJoker_negative_steps (grow : Nat → Nat → Nat) (spare : List Card) :
    (moveJoker grow (NewPontifexCipher [JOKER_A, "AC", "2C"] spare) JOKER_A (-1)).map
      PontifexCipher.deck = some ["AC", "2C"] :=
  (moveJoker_deck grow _ _ _).trans
    (by show moveJokerV [JOKER_A, "AC", "2C"] JOKER_A (-1) = some ["AC", "2C"]; decide)

/-! ## The claims on the single operations, the stream and the two variants -/

/-- C11, what the code does.  On a deck that holds both jokers, with `lo < hi` their
indices, `tripleCut` keeps the length and leaves `bottom' ++ middle ++ top`, where `middle`
is the span `lo .. hi`, `top` the cards at `0 .. lo-1`, and `bottom'` is the cards at
`hi+1 .. end` only when the inner `append` finds no room (`cap < lo + hi + 1`); otherwise
the first cards of `bottom'` are copies of the first cards of `top`.  The reassembly of the
claim is what results when `lo = 0`, when no card follows `hi`, or when there is no room. -/
theorem tripleCut_reassembly (grow : Nat → Nat → Nat) (p : PontifexCipher)
    (hA : JOKER_A ∈ p.deck) (hB : JOKER_B ∈ p.deck) :
    jokerLo p.deck < jokerHi p.deck ∧
    (tripleCut grow p).deck.length = p.deck.length ∧
    (tripleCut grow p).deck =
      (if jokerLo p.deck + jokerHi p.deck + 1 ≤ cap p then
          (p.deck.take (jokerLo p.deck) ++
            (p.deck.drop (jokerHi p.deck + 1)).drop (jokerLo p.deck)).take
              (p.deck.drop (jokerHi p.deck + 1)).length
        else p.deck.drop (jokerHi p.deck + 1)) ++
        (p.deck.drop (jokerLo p.deck)).take (jokerHi p.deck + 1 - jokerLo p.deck) ++
        p.deck.take (jokerLo p.deck) ∧
    (jokerLo p.deck = 0 ∨ jokerHi p.deck + 1 = p.deck.length ∨
        cap p < jokerLo p.deck + jokerHi p.deck + 1 →
      (tripleCut grow p).deck =
        p.deck.drop (jokerHi p.deck + 1) ++
          (p.deck.drop (jokerLo p.deck)).take (jokerHi p.deck + 1 - jokerLo p.deck) ++
          p.deck.take (jokerLo p.deck)) := by
  have hd := tripleCut_deck grow p
  refine ⟨jokerLo_lt_hi p.deck hA hB, by rw [hd, length_tripleCutV], ?_, ?_⟩
  · rw [hd, tripleCutV_present _ p.deck hA hB]
    by_cases hfit : jokerLo p.deck + jokerHi p.deck + 1 ≤ cap p
    · rw [decide_eq_true hfit, if_pos hfit]; rfl
    · rw [decide_eq_false hfit, if_neg hfit]; rfl
  · intro h
    have hF := tripleCutV_present false p.deck hA hB
    rw [if_neg (by simp)] at hF
    rw [hd, ← hF]
    by_cases hfit : jokerLo p.deck + jokerHi p.deck + 1 ≤ cap p
    · rw [decide_eq_true hfit]
      rcases h with h | h | h
      · exact tripleCutV_clean p.deck (Or.inl h)
      · exact tripleCutV_clean p.deck (Or.inr h)
      · omega
    · rw [decide_eq_false hfit]

set_option maxRecDepth 100000 in
/-- Witness of C11: on `AC, JOKER_A, JOKER_B, 2C, ..., KS` (`lo = 1`, `hi = 2`) the deck after
`tripleCut` is `AC, 3C, ..., KS, JOKER_A, JOKER_B, AC`, not the reassembly
`2C, 3C, ..., KS, JOKER_A, JOKER_B, AC` of the claim: `2C` is lost. -/
theorem tripleCut_reassembly_witness :
    (tripleCut doublingGrow (NewPontifexCipher jokersSecondDeck [])).deck =
      "AC" :: (orderedDeck.drop 2).take 50 ++ [JOKER_A, JOKER_B, "AC"] ∧
    (tripleCut doublingGrow (NewPontifexCipher jokersSecondDeck [])).deck ≠
      jokersSecondDeck.drop 3 ++ (jokersSecondDeck.drop 1).take 2 ++ jokersSecondDeck.take 1 ∧
    "2C" ∉ (tripleCut doublingGrow (NewPontifexCipher jokersSecondDeck [])).deck := by
  have h := (tripleCut_reassembly doublingGrow (NewPontifexCipher jokersSecondDeck [])
    (by decide) (by decide)).2.2.1
  have e : (tripleCut doublingGrow (NewPontifexCipher jokersSecondDeck [])).deck =
      "AC" :: (orderedDeck.drop 2).take 50 ++ [JOKER_A, JOKER_B, "AC"] := by
    rw [h]; decide
  rw [e]
  exact ⟨rfl, by decide, by decide⟩

/-- C12.  For every deck of length `n ≥ 2` in which `joker` first occurs at index `i`, and
every step count `steps ≥ 0`: `moveJoker(joker, steps)` returns, the deck still has length
`n`, the joker sits at index `(i + steps) mod (n - 1)`, and removing that index gives the
original deck without index `i` (the other cards keep their order). -/
theorem moveJoker_placement (grow : Nat → Nat → Nat) (p : PontifexCipher) (joker : Card)
    (steps : Int) (i : Nat) (hn : 2 ≤ p.deck.length) (hi : indexOf p joker = i)
    (hs : 0 ≤ steps) :
    ∃ p', moveJoker grow p joker steps = some p' ∧ p'.deck.length = p.deck.length ∧
      p'.deck[(((i : Int) + steps) % ((p.deck.length : Int) - 1)).toNat]? = some joker ∧
      p'.deck.eraseIdx (((i : Int) + steps) % ((p.deck.length : Int) - 1)).toNat =
        p.deck.eraseIdx i := by
  obtain ⟨d', h1, h2, h3, h4⟩ := moveJokerV_placement p.deck joker steps i hn hi hs
  have hd := moveJoker_deck grow p joker steps
  rw [h1] at hd
  cases hm : moveJoker grow p joker steps with
  | none => rw [hm] at hd; exact absurd hd (by simp)
  | some p' =>
    rw [hm] at hd
    simp only [Option.map_some', Option.some.injEq] at hd
    exact ⟨p', rfl, by rw [hd]; exact h2, by rw [hd]; exact h3, by rw [hd]; exact h4⟩

set_option maxRecDepth 100000 in
/-- Witness of C12: in the ordered deck `JOKER_B` is at index 53; moved by 2 it sits at index
`(53 + 2) mod 53 = 2`. -/
theorem moveJoker_placement_witness :
    ∃ p', moveJoker doublingGrow (NewPontifexCipher orderedDeck []) JOKER_B 2 = some p' ∧
      p'.deck.length = 54 ∧ p'.deck[2]? = some JOKER_B ∧
      p'.deck.eraseIdx 2 = orderedDeck.eraseIdx 53 :=
  moveJoker_placement doublingGrow (NewPontifexCipher orderedDeck []) JOKER_B 2 53
    (by decide) (by decide) (by decide)

/-- C13.  For every deck whose top card has value `v`: if `v ≥ len` then `getOutputCard`
returns `-1`; otherwise, with `c` the card at index `v`, it returns `-1` when `c` is a joker
and `cardValue(c)`, which is not `-1`, when it is not.  The function assigns nothing to the
deck: its embedding returns the value only. -/
theorem getOutputCard_definition (p : PontifexCipher) (top : Card) (v : Int)
    (htop : p.deck.head? = some top) (hv : cardValue top = some v) :
    (v ≥ p.deck.length → getOutputCard p = some (-1)) ∧
    (v < p.deck.length →
      ∃ c, p.deck[v.toNat]? = some c ∧
        ((c = JOKER_A ∨ c = JOKER_B) → getOutputCard p = some (-1)) ∧
        (¬ (c = JOKER_A ∨ c = JOKER_B) →
          getOutputCard p = cardValue c ∧ getOutputCard p ≠ some (-1))) := by
  have hv0 : 0 ≤ v := by
    rcases cardValue_bounds top v hv with h | h <;> omega
  unfold getOutputCard
  rw [htop]
  dsimp only
  rw [hv]
  dsimp only
  constructor
  · intro hge
    rw [if_pos hge]
  · intro hlt
    have hidx : v.toNat < p.deck.length := by omega
    refine ⟨p.deck[v.toNat], List.getElem?_eq_getElem hidx, ?_, ?_⟩
    · intro hj
      rw [if_neg (by omega), List.getElem?_eq_getElem hidx]
      dsimp only
      rw [cardValue_joker _ hj]
      rfl
    · intro hj
      rw [if_neg (by omega), List.getElem?_eq_getElem hidx]
      dsimp only
      cases hc : cardValue p.deck[v.toNat] with
      | none => exact ⟨rfl, by simp⟩
      | some x =>
        have hb := cardValue_ranked _ hj x hc
        dsimp only
        rw [if_neg (by omega), if_neg (by omega)]
        refine ⟨rfl, ?_⟩
        intro e
        injection e with e
        omega

set_option maxRecDepth 100000 in
/-- Witness of C13: the top card `AC` of the ordered deck has value 1; the card at index 1 is
`2C`, not a joker, and `getOutputCard` returns its value 2. -/
theorem getOutputCard_definition_witness :
    getOutputCard (NewPontifexCipher orderedDeck []) = some 2 := by
  obtain ⟨c, hc, _, h⟩ := (getOutputCard_definition (NewPontifexCipher orderedDeck []) "AC" 1
    (by decide) (by decide)).2 (by decide)
  have e : (NewPontifexCipher orderedDeck []).deck[(1 : Int).toNat]? = some "2C" := by decide
  rw [e] at hc
  injection hc with hc
  rw [(h (by rw [← hc]; decide)).1, ← hc]
  decide

/-- C14.  The jokers have value 53, and for every suit the cards `A`, `2`, ..., `10`, `J`,
`Q`, `K` of that suit have the values 1, 2, ..., 13. -/
theorem cardValue_mapping :
    cardValue JOKER_A = some 53 ∧ cardValue JOKER_B = some 53 ∧
    ∀ suit ∈ suits, ranks.map (fun rank => cardValue (rank ++ suit)) =
      [some 1, some 2, some 3, some 4, some 5, some 6, some 7, some 8, some 9, some 10,
        some 11, some 12, some 13] := by
  decide

/-- C15.  On a deck that does not contain the requested joker `moveJoker` returns the cipher
state as it was, and on a deck that lacks `JOKER_A` or `JOKER_B` so does `tripleCut`. -/
theorem missing_joker_noop (grow : Nat → Nat → Nat) (p : PontifexCipher) (joker : Card)
    (steps : Int) :
    (joker ∉ p.deck → moveJoker grow p joker steps = some p) ∧
    (JOKER_A ∉ p.deck ∨ JOKER_B ∉ p.deck → tripleCut grow p = p) := by
  constructor
  · intro h
    exact moveJoker_absent grow p joker steps ((indexOf_eq_neg_one p joker).mpr h)
  · intro h
    apply tripleCut_absent grow p
    rcases h with h | h
    · exact Or.inl ((indexOf_eq_neg_one p _).mpr h)
    · exact Or.inr ((indexOf_eq_neg_one p _).mpr h)

set_option maxRecDepth 100000 in
/-- Witness of C15: the 53-entry deck without `JOKER_B`. -/
theorem missing_joker_noop_witness :
    moveJoker doublingGrow (NewPontifexCipher deckWithoutJokerB []) JOKER_B 2 =
      some (NewPontifexCipher deckWithoutJokerB []) ∧
    tripleCut doublingGrow (NewPontifexCipher deckWithoutJokerB []) =
      NewPontifexCipher deckWithoutJokerB [] :=
  ⟨(missing_joker_noop doublingGrow (NewPontifexCipher deckWithoutJokerB []) JOKER_B 2).1
      (by decide),
    (missing_joker_noop doublingGrow (NewPontifexCipher deckWithoutJokerB []) JOKER_B 2).2
      (Or.inr (by decide))⟩

/-- C16, what the code does.  Whatever the capacity of the slice: `moveJoker(JOKER_A, 1)` on
the one-card deck `JOKER_A` panics (`% len(p.deck)` with an empty deck after the removal);
`countCut` and `getOutputCard` panic on the empty deck (`p.deck[len(p.deck)-1]`,
`p.deck[0]`) and on a deck holding the empty string (`card[:len(card)-1]`); so does a whole
keystream round from the empty deck.  On every deck of at least two cards, none of them the
empty string, `moveJoker`, `countCut` and `getOutputCard` complete (`tripleCut` always
does). -/
theorem primitives_can_panic (grow : Nat → Nat → Nat) (spare : List Card) :
    moveJoker grow (NewPontifexCipher [JOKER_A] spare) JOKER_A 1 = none ∧
    countCut grow (NewPontifexCipher [] spare) = none ∧
    getOutputCard (NewPontifexCipher [] spare) = none ∧
    countCut grow (NewPontifexCipher [""] spare) = none ∧
    getOutputCard (NewPontifexCipher [""] spare) = none ∧
    keystreamRound grow (NewPontifexCipher [] spare) = none ∧
    ∀ p : PontifexCipher, 2 ≤ p.deck.length → (∀ c ∈ p.deck, c ≠ "") →
      (∀ (joker : Card) (steps : Int), ∃ q, moveJoker grow p joker steps = some q) ∧
      (∃ q, countCut grow p = some q) ∧ (∃ v, getOutputCard p = some v) := by
  have hm : moveJokerV [JOKER_A] JOKER_A 1 = none := by decide
  have hc0 : countCutV [] = none := by decide
  have hc1 : countCutV [""] = none := by decide
  have hcut0 : countCut grow (NewPontifexCipher [] spare) = none :=
    map_deck_eq_none ((countCut_deck grow _).trans hc0)
  refine ⟨map_deck_eq_none ((moveJoker_deck grow _ _ _).trans hm), hcut0, rfl,
    map_deck_eq_none ((countCut_deck grow _).trans hc1), rfl, ?_,
    fun p hlen htok => primitives_complete grow p hlen htok⟩
  unfold keystreamRound
  rw [moveJoker_absent grow _ _ _ (by rfl)]
  dsimp only
  rw [moveJoker_absent grow _ _ _ (by rfl)]
  dsimp only
  rw [tripleCut_absent grow _ (Or.inl (by rfl)), hcut0]

/-- C17.  The value read from any card is 53 or lies in `[0, 13]`, so the branch
`output > 26` (reached only when the value is not 53) is never taken; every value
`getOutputCard` returns is at most 13, and so is every value of a keystream that
`generateKeystream` returns. -/
theorem keystream_at_most_13 (grow : Nat → Nat → Nat) (fuel n : Nat) (p : PontifexCipher)
    (k : List Int) (h : (generateKeystream grow fuel n p).map Prod.fst = Run.done k) :
    (∀ (card : Card) (output : Int), cardValue card = some output →
      output = 53 ∨ (0 ≤ output ∧ output ≤ 13)) ∧
    (∀ (card : Card) (output : Int), cardValue card = some output → output ≠ 53 →
      ¬ output > 26) ∧
    (∀ (q : PontifexCipher) (v : Int), getOutputCard q = some v → v ≤ 13) ∧
    ∀ v ∈ k, v ≤ 13 := by
  refine ⟨cardValue_bounds, ?_, ?_, ?_⟩
  · intro card output hc hne
    rcases cardValue_bounds card output hc with h53 | hb <;> omega
  · intro q v hq
    rcases getOutputCardV_bounds q.deck v (getOutputCard_eq q ▸ hq) with h1 | hb <;> omega
  · cases hg : generateKeystream grow fuel n p with
    | crash => rw [hg] at h; exact absurd h (by simp [Run.map])
    | timeout => rw [hg] at h; exact absurd h (by simp [Run.map])
    | done r =>
      obtain ⟨k', p'⟩ := r
      rw [hg] at h
      simp only [Run.map, Run.done.injEq] at h
      subst h
      intro v hv
      exact (loop_bounds grow fuel n p [] k' p' (by simp) hg v hv).2

set_option maxRecDepth 100000 in
/-- Witness of C17: the first four keystream values from the ordered deck are 4, 6, 10, 5,
and the largest of them is at most 13. -/
theorem keystream_at_most_13_witness :
    (generateKeystream doublingGrow 4 4 (NewPontifexCipher orderedDeck [])).map Prod.fst =
      Run.done [4, 6, 10, 5] ∧ (10 : Int) ≤ 13 :=
  ⟨by decide,
    (keystream_at_most_13 doublingGrow 4 4 (NewPontifexCipher orderedDeck []) [4, 6, 10, 5]
      (by decide)).2.2.2 10 (by decide)⟩

set_option maxRecDepth 100000 in
/-- C18, what the code does.  Whatever the capacity of the slice: `tripleCut` applied twice
restores every deck that holds each joker exactly once and has a joker as its top or as its
bottom card, among them the fixture `orderedDeck`; applied twice to `jokersSecondDeck`
(`AC, JOKER_A, JOKER_B, 2C, ..., KS`, each joker exactly once) it leaves
`AC, JOKER_A, JOKER_B, AC, 3C, ..., KS`, which is not the original order. -/
theorem tripleCut_twice (grow : Nat → Nat → Nat) (spare : List Card) :
    (∀ p : PontifexCipher, p.deck.count JOKER_A = 1 → p.deck.count JOKER_B = 1 →
      jokerLo p.deck = 0 ∨ jokerHi p.deck + 1 = p.deck.length →
      (tripleCut grow (tripleCut grow p)).deck = p.deck) ∧
    orderedDeck.count JOKER_A = 1 ∧ orderedDeck.count JOKER_B = 1 ∧
    (tripleCut grow (tripleCut grow (NewPontifexCipher orderedDeck spare))).deck =
      orderedDeck ∧
    jokersSecondDeck.count JOKER_A = 1 ∧ jokersSecondDeck.count JOKER_B = 1 ∧
    (tripleCut grow (tripleCut grow (NewPontifexCipher jokersSecondDeck spare))).deck =
      "AC" :: JOKER_A :: JOKER_B :: "AC" :: (orderedDeck.drop 2).take 50 ∧
    (tripleCut grow (tripleCut grow (NewPontifexCipher jokersSecondDeck spare))).deck ≠
      jokersSecondDeck := by
  have h2 := twoCuts_eval grow (NewPontifexCipher jokersSecondDeck spare)
    (by show robustCut jokersSecondDeck = true; decide)
    (by show robustCut (tripleCutV true jokersSecondDeck) = true; decide)
  have e2 : tripleCutV true (tripleCutV true jokersSecondDeck) =
      "AC" :: JOKER_A :: JOKER_B :: "AC" :: (orderedDeck.drop 2).take 50 := by decide
  have hoA : orderedDeck.count JOKER_A = 1 := by decide
  have hoB : orderedDeck.count JOKER_B = 1 := by decide
  have hbot : jokerHi orderedDeck + 1 = orderedDeck.length := by decide
  refine ⟨fun p hA hB h => twoCuts_clean grow p hA hB h, hoA, hoB,
    twoCuts_clean grow (NewPontifexCipher orderedDeck spare) hoA hoB (Or.inr hbot),
    by decide, by decide, h2.trans e2, ?_⟩
  rw [h2.trans e2]
  decide

/-- C19.  If `generateKeystream(m + k)` from `p` completes with the stream `s`, then
`generateKeystream(m)` from `p` completes with some `s1` of length `m`, leaving the state
`p1`; `generateKeystream(k)` from `p1` completes with some `s2`; `s = s1 ++ s2`; and the
final state is the one the single run leaves. -/
theorem keystream_is_a_stream (grow : Nat → Nat → Nat) (fuel m k : Nat)
    (p : PontifexCipher) (s : List Int)
    (h : (generateKeystream grow fuel (m + k) p).map Prod.fst = Run.done s) :
    ∃ s1 p1 s2 pf, generateKeystream grow fuel (m + k) p = Run.done (s, pf) ∧
      generateKeystream grow fuel m p = Run.done (s1, p1) ∧
      generateKeystream grow fuel k p1 = Run.done (s2, pf) ∧
      s = s1 ++ s2 ∧ s1.length = m ∧ s1 = s.take m := by
  cases hg : generateKeystream grow fuel (m + k) p with
  | crash => rw [hg] at h; exact absurd h (by simp [Run.map])
  | timeout => rw [hg] at h; exact absurd h (by simp [Run.map])
  | done r =>
    obtain ⟨s', pf⟩ := r
    rw [hg] at h
    simp only [Run.map, Run.done.injEq] at h
    subst h
    obtain ⟨s1, p1, s2, h1, h2, h3⟩ := generateKeystream_append grow fuel m k p pf s' hg
    have hlen : s1.length = m := loop_length grow fuel m p [] s1 p1 (by simp) h1
    refine ⟨s1, p1, s2, pf, rfl, h1, h2, h3, hlen, ?_⟩
    rw [h3, List.take_left' hlen]

set_option maxRecDepth 100000 in
/-- Witness of C19: from the ordered deck the stream of 4 values is the stream of 1 value
followed by the stream of 3 values from the state left behind. -/
theorem keystream_is_a_stream_witness :
    ∃ s1 p1 s2 pf,
      generateKeystream doublingGrow 4 (1 + 3) (NewPontifexCipher orderedDeck []) =
        Run.done ([4, 6, 10, 5], pf) ∧
      generateKeystream doublingGrow 4 1 (NewPontifexCipher orderedDeck []) =
        Run.done (s1, p1) ∧
      generateKeystream doublingGrow 4 3 p1 = Run.done (s2, pf) ∧
      [4, 6, 10, 5] = s1 ++ s2 ∧ s1.length = 1 ∧ s1 = ([4, 6, 10, 5] : List Int).take 1 :=
  keystream_is_a_stream doublingGrow 4 1 3 (NewPontifexCipher orderedDeck []) [4, 6, 10, 5]
    (by decide)

/-- C20.  On every deck of length at least 2 that contains `JOKER_A` and `JOKER_B`: the
unguarded `moveJoker` of `main.go` returns, for either joker and every step count
`steps ≥ 0`, the same cipher state as the guarded `moveJoker` of `pontifex.go` (and neither
panics); the unguarded `tripleCut` returns the state of the guarded one; and one keystream
round of `main.go` has the same outcome, deck and output, as one round of `pontifex.go`. -/
theorem main_variant_agrees (grow : Nat → Nat → Nat) (p : PontifexCipher)
    (hlen : 2 ≤ p.deck.length) (hA : JOKER_A ∈ p.deck) (hB : JOKER_B ∈ p.deck) :
    (∀ (joker : Card) (steps : Int), joker ∈ p.deck → 0 ≤ steps →
      ∃ p', moveJoker grow p joker steps = some p' ∧
        Main.moveJoker grow p joker steps = some p') ∧
    Main.tripleCut grow p = some (tripleCut grow p) ∧
    Main.keystreamRound grow p = keystreamRound grow p := by
  refine ⟨?_, main_tripleCut_eq grow p hA hB, main_keystreamRound_eq grow p hA hB⟩
  intro joker steps hj hs
  obtain ⟨p', hp'⟩ := moveJoker_completes grow p joker steps hlen
  exact ⟨p', hp', by rw [main_moveJoker_eq grow p joker steps hj hs]; exact hp'⟩

set_option maxRecDepth 100000 in
/-- Witness of C20: on the ordered deck one round of `main.go` and one round of
`pontifex.go` have the same outcome, with output 4. -/
theorem main_variant_agrees_witness :
    Main.keystreamRound doublingGrow (NewPontifexCipher orderedDeck []) =
      keystreamRound doublingGrow (NewPontifexCipher orderedDeck []) ∧
    (keystreamRound doublingGrow (NewPontifexCipher orderedDeck [])).map Prod.snd = some 4 :=
  ⟨(main_variant_agrees doublingGrow (NewPontifexCipher orderedDeck []) (by decide)
      (by decide) (by decide)).2.2, by decide⟩

end Pontifex
